import Mathlib

/-!
# Verification of the google-sheets-i18n-syncer core

A shallow embedding of the translation-syncing core of the repository:

* the dotted-key flatten/unflatten codec of `I18nSyncer`
  (`#flattenObject`, `#setNestedValue`, `#unflattenObjectFromMap`),
* the tabular codec (`#processDataByLanguage` and the row building in `push`),
* the format handlers (`getFormatHandler`, `JsonFormatHandler`, `JsFormatHandler`,
  `BaseFormatHandler.#unflattenObject`),
* the `pull`/`push` orchestration, with the Google-Sheets client and the
  filesystem treated as external collaborators supplied by a "world" record.

JavaScript strings are modelled as `List Char`; JavaScript objects are modelled
as ordered association lists (JS objects preserve insertion order for string
keys, and assigning an existing key keeps its position).
-/

set_option maxHeartbeats 1000000

namespace I18nSync

/-- JS strings, modelled as lists of characters. -/
abbrev Str := List Char

/-- JS values as the syncer manipulates them.  `obj` is a plain object with
ordered fields.  Every non-plain-object value (string, and also array, number,
`null`, which the syncer never inspects beyond their not being plain objects)
is collapsed into the `str` leaf holding its string payload. -/
inductive JsValue where
  | str : Str → JsValue
  | obj : List (Str × JsValue) → JsValue

mutual

def JsValue.decEq : (a b : JsValue) → Decidable (a = b)
  | .str a, .str b =>
    if h : a = b then .isTrue (by rw [h]) else .isFalse (by simp [h])
  | .str _, .obj _ => .isFalse (by simp)
  | .obj _, .str _ => .isFalse (by simp)
  | .obj a, .obj b =>
    match decEqFields a b with
    | .isTrue h => .isTrue (by rw [h])
    | .isFalse h => .isFalse (by simpa using h)

def JsValue.decEqFields : (a b : List (Str × JsValue)) → Decidable (a = b)
  | [], [] => .isTrue rfl
  | [], _ :: _ => .isFalse (by simp)
  | _ :: _, [] => .isFalse (by simp)
  | (k, v) :: r, (k2, v2) :: r2 =>
    if hk : k = k2 then
      match decEq v v2, decEqFields r r2 with
      | .isTrue hv, .isTrue hr => .isTrue (by rw [hk, hv, hr])
      | .isFalse hv, _ => .isFalse (by simp [hv])
      | _, .isFalse hr => .isFalse (by simp [hr])
    else .isFalse (by simp [hk])

end

instance : DecidableEq JsValue := JsValue.decEq

instance : Inhabited JsValue := ⟨.obj []⟩

/-- JS property read `o[k]` on an object modelled as an association list. -/
def jsGet {α : Type} : List (Str × α) → Str → Option α
  | [], _ => none
  | (k2, v) :: rest, k => if k2 = k then some v else jsGet rest k

/-- `o[k] ?? d`. -/
def jsGetD {α : Type} (m : List (Str × α)) (k : Str) (d : α) : α :=
  (jsGet m k).getD d

/-- JS property write `o[k] = v`: update in place if the key exists (JS keeps
the property's position), append otherwise (insertion order). -/
def jsSet {α : Type} : List (Str × α) → Str → α → List (Str × α)
  | [], k, v => [(k, v)]
  | (k2, v2) :: rest, k, v =>
    if k2 = k then (k, v) :: rest else (k2, v2) :: jsSet rest k v

/-- JS `String.prototype.split('.')`. -/
def splitDot : Str → List Str
  | [] => [[]]
  | c :: rest =>
    if c = '.' then [] :: splitDot rest
    else
      match splitDot rest with
      | s :: ss => (c :: s) :: ss
      | [] => [[c]]

/-- The key-joining template in `#flattenObject`:
`prefix ? prefix + '.' + k : k` (an empty string is falsy in JS). -/
def joinKey (pre k : Str) : Str := if pre = [] then k else pre ++ '.' :: k

/-- Inverse view of `splitDot`: join segments with dots. -/
def joinSegs : List Str → Str
  | [] => []
  | s :: rest =>
    match rest with
    | [] => s
    | _ :: _ => s ++ '.' :: joinSegs rest

/-! ## `I18nSyncer`'s dotted-key codec (src/unnamed/part_002, lines 14-50) -/

mutual

/-- `I18nSyncer.#flattenObject(obj, prefix, out)`: plain objects are descended
into with dot-joined keys; everything else is written to `out[prefix]`. -/
def flattenObject (v : JsValue) (pre : Str) (out : List (Str × JsValue)) :
    List (Str × JsValue) :=
  match v with
  | .obj fields => flattenFields fields pre out
  | .str s => jsSet out pre (.str s)

/-- The `for (const [k, v] of Object.entries(obj))` loop inside
`#flattenObject`. -/
def flattenFields (fields : List (Str × JsValue)) (pre : Str)
    (out : List (Str × JsValue)) : List (Str × JsValue) :=
  match fields with
  | [] => out
  | (k, w) :: rest => flattenFields rest pre (flattenObject w (joinKey pre k) out)

end

/-- The `if (typeof cur[k] !== 'object' || cur[k] === null || Array.isArray(cur[k]))
cur[k] = {}` step of `#setNestedValue`: the existing child object at `k`, or a
fresh empty one if there is none or it is not a plain object. -/
def childFields (target : List (Str × JsValue)) (k : Str) :
    List (Str × JsValue) :=
  match jsGet target k with
  | some (.obj fs) => fs
  | _ => []

/-- `I18nSyncer.#setNestedValue(target, dottedKey, value)` after the
`split('.')`: walk/create intermediate objects for all but the last segment
(an existing non-object value at an intermediate segment is replaced by a fresh
empty object), assign at the final segment.  The in-place JS mutation is
rendered functionally: writing the updated child back with `jsSet` preserves
JS property order. -/
def setNestedValue (target : List (Str × JsValue)) (parts : List Str)
    (v : JsValue) : List (Str × JsValue) :=
  match parts with
  | [] => target
  | k :: rest =>
    match rest with
    | [] => jsSet target k v
    | _ :: _ => jsSet target k (.obj (setNestedValue (childFields target k) rest v))

/-- `I18nSyncer.#unflattenObjectFromMap(kv)`: fold `#setNestedValue` over the
entries, skipping empty keys (`if (!k) continue`). -/
def unflattenObjectFromMap (kv : List (Str × JsValue)) : List (Str × JsValue) :=
  kv.foldl (fun out p =>
    if p.1 = [] then out else setNestedValue out (splitDot p.1) p.2) []

/-! ## Well-formedness of nested mappings

`wfFields fields` captures "x is a JS nested mapping suitable for the
round-trip": keys at every level are non-empty, contain no `'.'` and are
pairwise distinct (JS objects cannot carry duplicate keys), and no value is an
empty object (an empty object produces no flat entry, so it cannot be
reconstructed). -/

mutual

/-- Well-formedness of one value position: leaves are always fine, an object
value must be non-empty and recursively well-formed. -/
def wfEntry : JsValue → Bool
  | .str _ => true
  | .obj fields => !fields.isEmpty && wfFields fields

/-- Well-formedness of an object's field list. -/
def wfFields : List (Str × JsValue) → Bool
  | [] => true
  | (k, v) :: rest =>
    !k.isEmpty && !k.contains '.' && !(rest.map Prod.fst).contains k &&
      wfEntry v && wfFields rest

end

/-! Claim-side predicates (the round-trip claim's stated precondition): no key
contains a literal `'.'`, and no object anywhere carries an empty-string key. -/

mutual

/-- No key anywhere in the tree contains `'.'` or is the empty string. -/
def keysDotFreeEntry : JsValue → Bool
  | .str _ => true
  | .obj fields => keysDotFree fields

def keysDotFree : List (Str × JsValue) → Bool
  | [] => true
  | (k, v) :: rest =>
    !k.isEmpty && !k.contains '.' && keysDotFreeEntry v && keysDotFree rest

end

/-! ## `BaseFormatHandler.#unflattenObject`
(src/lib/formatHandlers/BaseFormatHandler.js, lines 114-140) -/

/-- The character class stripped by JS `String.prototype.trim` (ASCII
whitespace, line terminators and NBSP; the exotic Unicode space separators are
omitted — no key in scope contains them). -/
def isJsSpace (c : Char) : Bool :=
  c = ' ' || c = '\t' || c = '\n' || c = '\r' || c = '\x0b' || c = '\x0c' ||
    c = '\xa0'

/-- JS `String.prototype.trim`. -/
def jsTrim (s : Str) : Str :=
  ((s.dropWhile isJsSpace).reverse.dropWhile isJsSpace).reverse

/-- The per-key walk of `BaseFormatHandler.#unflattenObject`: identical to
`I18nSyncer.#setNestedValue` except that every path segment is `trim()`-ed
(`const key = parts[i].trim()`). -/
def setNestedTrimmed (target : List (Str × JsValue)) (parts : List Str)
    (v : JsValue) : List (Str × JsValue) :=
  match parts with
  | [] => target
  | k :: rest =>
    match rest with
    | [] => jsSet target (jsTrim k) v
    | _ :: _ =>
      jsSet target (jsTrim k)
        (.obj (setNestedTrimmed (childFields target (jsTrim k)) rest v))

/-- `BaseFormatHandler.#unflattenObject(kv)`: fold the trimmed walk over the
entries, skipping empty keys (`if (!dottedKey) continue`). -/
def unflattenObject (kv : List (Str × JsValue)) : List (Str × JsValue) :=
  kv.foldl (fun out p =>
    if p.1 = [] then out else setNestedTrimmed out (splitDot p.1) p.2) []

/-! ## The tabular decode: `I18nSyncer.#processDataByLanguage`
(src/unnamed/part_002, lines 100-143) -/

/-- The `value.replace(/\r?\n/g, '\\n')` escaping in `#processDataByLanguage`:
each LF, optionally preceded by a CR, becomes the two-character sequence
backslash-n (a lone CR is not matched and stays). -/
def escapeNewlines : Str → Str
  | [] => []
  | '\r' :: '\n' :: rest => '\\' :: 'n' :: escapeNewlines rest
  | '\n' :: rest => '\\' :: 'n' :: escapeNewlines rest
  | c :: rest => c :: escapeNewlines rest

/-- One data row of the decode loop: skip the row if its key cell is falsy
(`if (!key) continue`); otherwise, for each language column, store the escaped
cell value (`row[colIndex] || ''`) under the row's key in that language's map.
The `for (let colIndex = 1; colIndex < headers.length; ...)` loop is rendered
as a fold over the language headers paired with their column indices. -/
def processRow (headers : List Str) (tr : List (Str × List (Str × Str)))
    (row : List Str) : List (Str × List (Str × Str)) :=
  let key := row.getD 0 []
  if key = [] then tr
  else
    (List.enumFrom 1 (headers.drop 1)).foldl (fun tr2 p =>
      let value := row.getD p.1 []
      jsSet tr2 p.2 (jsSet (jsGetD tr2 p.2 []) key (escapeNewlines value))) tr

/-- `I18nSyncer.#processDataByLanguage(data)`: fewer than 2 rows yields the
empty mapping; otherwise one (initially empty) translation map is created per
non-key header column, in header order, and every data row is folded in. -/
def processDataByLanguage (data : List (List Str)) :
    List (Str × List (Str × Str)) :=
  if data.length < 2 then []
  else
    match data with
    | [] => []
    | headers :: rows =>
      let init := (headers.drop 1).foldl (fun tr lang => jsSet tr lang []) []
      rows.foldl (processRow headers) init

/-- The data row whose value wins for `key` after the decode fold: the last row
(in sheet order) whose key cell equals `key`. -/
def lastRowWith (rows : List (List Str)) (key : Str) : Option (List Str) :=
  match rows with
  | [] => none
  | row :: rest =>
    match lastRowWith rest key with
    | some r => some r
    | none => if row.getD 0 [] = key then some row else none

/-- Proof view of the decode loop: its effect on the single language map of
column `j` (key skipped if falsy, otherwise last write wins). -/
def projRow (j : Nat) (m : List (Str × Str)) (row : List Str) :
    List (Str × Str) :=
  if row.getD 0 [] = [] then m
  else jsSet m (row.getD 0 []) (escapeNewlines (row.getD j []))

/-! ## The tabular encode: row building in `I18nSyncer.push`
(src/unnamed/part_002, lines 375-413) -/

/-- The `value.replace(/\\n/g, '\n')` un-escaping in the `push` row builder:
each two-character backslash-n sequence becomes a literal LF. -/
def unescapeNewlines : Str → Str
  | [] => []
  | '\\' :: 'n' :: rest => '\n' :: unescapeNewlines rest
  | c :: rest => c :: unescapeNewlines rest

/-- A hexadecimal digit, for JSON control-character escapes. -/
def hexDigit (n : Nat) : Char :=
  if n < 10 then Char.ofNat (48 + n) else Char.ofNat (87 + n)

/-- JSON string-character escaping as performed by `JSON.stringify`. -/
def jsonEscapeChar (c : Char) : Str :=
  if c = '"' then ['\\', '"']
  else if c = '\\' then ['\\', '\\']
  else if c = '\n' then ['\\', 'n']
  else if c = '\r' then ['\\', 'r']
  else if c = '\t' then ['\\', 't']
  else if c = '\x08' then ['\\', 'b']
  else if c = '\x0c' then ['\\', 'f']
  else if c.toNat < 32 then
    ['\\', 'u', '0', '0', hexDigit (c.toNat / 16), hexDigit (c.toNat % 16)]
  else [c]

/-- A JSON string literal. -/
def jsonQuote (s : Str) : Str :=
  '"' :: s.foldr (fun c acc => jsonEscapeChar c ++ acc) ['"']

/-- Join strings with a separator character. -/
def joinWith (sep : Char) : List Str → Str
  | [] => []
  | s :: rest =>
    match rest with
    | [] => s
    | _ :: _ => s ++ sep :: joinWith sep rest

mutual

/-- `JSON.stringify(value)` (compact), as used on non-scalar cell values in the
`push` row builder. -/
def jsonStringifyCompact : JsValue → Str
  | .str s => jsonQuote s
  | .obj fields => '\x7b' :: joinWith ',' (jsonFieldsCompact fields) ++ ['\x7d']

def jsonFieldsCompact : List (Str × JsValue) → List Str
  | [] => []
  | (k, v) :: rest =>
    (jsonQuote k ++ ':' :: jsonStringifyCompact v) :: jsonFieldsCompact rest

end

/-- One output row of `push` for `key`: the key cell, then for each language
(in the given order) the looked-up flat value (`?? ''`), with non-scalar values
JSON-stringified, coerced to a string, and backslash-n sequences turned into
literal newlines. -/
def buildRow (codes : List Str) (flat : List (Str × List (Str × JsValue)))
    (key : Str) : List Str :=
  key :: codes.map (fun c =>
    match jsGet (jsGetD flat c []) key with
    | some (JsValue.obj fs) => unescapeNewlines (jsonStringifyCompact (.obj fs))
    | some (JsValue.str s) => unescapeNewlines s
    | none => unescapeNewlines [])

/-- View a string-valued flat map (decode output) as a JS object. -/
def toJsMap (m : List (Str × Str)) : List (Str × JsValue) :=
  m.map (fun p => (p.1, JsValue.str p.2))

/-- View the whole decode output as per-language JS objects. -/
def toJsByLang (tr : List (Str × List (Str × Str))) :
    List (Str × List (Str × JsValue)) :=
  tr.map (fun lm => (lm.1, toJsMap lm.2))

/-! ## `push`: sorting the language files (src/unnamed/part_002, lines 307-323) -/

/-- Character-code lexicographic comparison on strings (`a ≤ b`). -/
def lexLe : Str → Str → Bool
  | [], _ => true
  | _ :: _, [] => false
  | a :: as, b :: bs =>
    if a < b then true else if b < a then false else lexLe as bs

/-- `String.prototype.localeCompare`, a host collation routine; modelled as
character-code lexicographic comparison (the two agree on the plain
lowercase-ASCII language codes this tool handles). -/
def localeCompare (a b : Str) : Int :=
  if a = b then 0 else if lexLe a b then -1 else 1

/-- `langCode.startsWith('_')`. -/
def startsUnderscore : Str → Bool
  | '_' :: _ => true
  | _ => false

/-- The sort comparator in `push`: the main language always first, codes
starting with an underscore last, all other pairs by `localeCompare`. -/
def pushCompare (mainLanguage a b : Str) : Int :=
  if a = mainLanguage then -1
  else if b = mainLanguage then 1
  else
    match startsUnderscore a, startsUnderscore b with
    | true, false => 1
    | false, true => -1
    | _, _ => localeCompare a b

/-- Stable insertion of one language file into an already sorted list (an
element comparing equal goes after the existing ones). -/
def insertFile (mainLanguage : Str) (x : Str × JsValue) :
    List (Str × JsValue) → List (Str × JsValue)
  | [] => [x]
  | y :: ys =>
    if pushCompare mainLanguage y.1 x.1 ≤ 0 then
      y :: insertFile mainLanguage x ys
    else x :: y :: ys

/-- `languageFiles.sort(comparator)`: ECMAScript `Array.prototype.sort` is
required to be stable, so any stable sort by the comparator's preorder models
it; insertion sort is used. -/
def sortFiles (mainLanguage : Str) (files : List (Str × JsValue)) :
    List (Str × JsValue) :=
  files.foldl (fun acc x => insertFile mainLanguage x acc) []

/-- The priority group the comparator implements (claim-side view): main
language first, underscore-prefixed codes last, the rest in between. -/
def groupOf (mainLanguage code : Str) : Nat :=
  if code = mainLanguage then 0 else if startsUnderscore code then 2 else 1

/-- The ordering C6 describes: non-decreasing groups, and alphabetical inside
the middle group. -/
def claimLe (mainLanguage a b : Str) : Prop :=
  groupOf mainLanguage a ≤ groupOf mainLanguage b ∧
    (groupOf mainLanguage a = 1 → groupOf mainLanguage b = 1 →
      lexLe a b = true)

/-- The header row built in `push` (line 375):
`['Key', ...languageFiles.map(f => f.langCode)]` over the sorted files. -/
def pushHeadersOf (sortedFiles : List (Str × JsValue)) : List Str :=
  "Key".toList :: sortedFiles.map Prod.fst

/-! ## `push`: the merged key list (src/unnamed/part_002, lines 327-373) -/

/-- `Object.fromEntries(languageFiles.map(({langCode, content}) =>
[langCode, #flattenObject(content)]))`. -/
def flattenedByLangOf (files : List (Str × JsValue)) :
    List (Str × List (Str × JsValue)) :=
  files.foldl (fun m f => jsSet m f.1 (flattenObject f.2 [] [])) []

/-- The `forEach(key => { if (!keySet.has(key)) { allKeys.push(key);
keySet.add(key) } })` accumulation; the separate `Set` always mirrors
membership in the accumulated array, so it is rendered as a `contains` test. -/
def addKeys (acc : List Str) (ks : List Str) : List Str :=
  ks.foldl (fun a k => if a.contains k then a else a ++ [k]) acc

/-- The seeding of the merged key list (lines 340-362): the main-language
file's flattened keys when `find` locates it, otherwise — after a warning —
the first sorted file's keys (nothing when there are no files). -/
def seedKeys (sortedFiles : List (Str × JsValue))
    (flat : List (Str × List (Str × JsValue))) (mainLanguage : Str) :
    List Str :=
  match sortedFiles.find? (fun f => f.1 = mainLanguage) with
  | none =>
    match sortedFiles with
    | [] => []
    | f :: _ => addKeys [] ((jsGetD flat f.1 []).map Prod.fst)
  | some f => addKeys [] ((jsGetD flat f.1 []).map Prod.fst)

/-- The merged ordered key list of `push`: the seed, then the missing keys of
every file in file-then-key order. -/
def mergeAllKeys (sortedFiles : List (Str × JsValue))
    (flat : List (Str × List (Str × JsValue))) (mainLanguage : Str) :
    List Str :=
  sortedFiles.foldl (fun a f => addKeys a ((jsGetD flat f.1 []).map Prod.fst))
    (seedKeys sortedFiles flat mainLanguage)

/-- Claim-side view: keep the first occurrence of each element, in order. -/
def firstSeen : List Str → List Str
  | [] => []
  | k :: rest => k :: firstSeen (rest.filter (fun x => !(x == k)))
termination_by l => l.length
decreasing_by
  simp only [List.length_cons]
  exact Nat.lt_succ_of_le (List.length_filter_le _ _)

/-! ## Format handler lookup (src/unnamed/part_004, lines 25-35) -/

/-- ASCII `String.prototype.toLowerCase` (the format names in scope are
ASCII). -/
def jsToLowerChar (c : Char) : Char :=
  if 'A' ≤ c ∧ c ≤ 'Z' then Char.ofNat (c.toNat + 32) else c

def jsToLower (s : Str) : Str := s.map jsToLowerChar

/-- The two registered format handlers (`formatHandlers = {json, js}`). -/
inductive FormatKind where
  | json
  | js
deriving DecidableEq

/-- `getFormatHandler(format)`: case-insensitive lookup in the handler map;
an unknown name logs a warning (the returned flag) and falls back to the JSON
handler. -/
def getFormatHandler (format : Str) : FormatKind × Bool :=
  let formatLower := jsToLower format
  if formatLower = "json".toList then (.json, false)
  else if formatLower = "js".toList then (.js, false)
  else (.json, true)

/-! ## `JsonFormatHandler.save` = `JSON.stringify(translation, null, 2)`
(src/unnamed/part_003, lines 21-23) -/

/-- Join strings with a separator string. -/
def joinWithStr (sep : Str) : List Str → Str
  | [] => []
  | s :: rest =>
    match rest with
    | [] => s
    | _ :: _ => s ++ sep ++ joinWithStr sep rest

mutual

/-- `JSON.stringify(value, null, 2)` on the modelled value type. -/
def jsonStringifyPretty : JsValue → Nat → Str
  | .str s, _ => jsonQuote s
  | .obj fields, level =>
    match fields with
    | [] => ['\x7b', '\x7d']
    | _ :: _ =>
      '\x7b' :: '\n' ::
        joinWithStr [',', '\n'] (jsonFieldsPretty fields (level + 1)) ++
        '\n' :: List.replicate (2 * level) ' ' ++ ['\x7d']

def jsonFieldsPretty : List (Str × JsValue) → Nat → List Str
  | [], _ => []
  | (k, v) :: rest, level =>
    (List.replicate (2 * level) ' ' ++ jsonQuote k ++ ':' :: ' ' ::
      jsonStringifyPretty v level) :: jsonFieldsPretty rest level

end

/-! ## `JsFormatHandler.save` (src/lib/formatHandlers/JsFormatHandler.js,
lines 21-50) -/

/-- The single-quote character. -/
def quoteChar : Char := Char.ofNat 39

/-- `.replace(/\\/g, '\\\\')`. -/
def escBackslash : Str → Str
  | [] => []
  | c :: rest =>
    if c = '\\' then '\\' :: '\\' :: escBackslash rest
    else c :: escBackslash rest

/-- `.replace(/'/g, '\\' + String.fromCharCode(39))`. -/
def escQuote : Str → Str
  | [] => []
  | c :: rest =>
    if c = quoteChar then '\\' :: quoteChar :: escQuote rest
    else c :: escQuote rest

/-- `escapeString` in `JsFormatHandler.save`: three sequential `replace`
passes — backslashes doubled, then single quotes backslash-escaped, then CR?LF
to the two-character backslash-n token. -/
def jsEscapeString (s : Str) : Str := escapeNewlines (escQuote (escBackslash s))

mutual

/-- `serializeObject` in `JsFormatHandler.save`: keys unquoted unless they
contain a space, leaf values coerced to strings and single-quoted with
`escapeString`, two-space indentation per level, trailing commas. -/
def serializeObject : JsValue → Nat → Str
  | .str s, _ => quoteChar :: jsEscapeString s ++ [quoteChar]
  | .obj fields, level =>
    '\x7b' :: '\n' :: joinWith '\n' (serializeFields fields level) ++
      '\n' :: List.replicate (2 * level) ' ' ++ ['\x7d']

def serializeFields : List (Str × JsValue) → Nat → List Str
  | [], _ => []
  | (k, v) :: rest, level =>
    (List.replicate (2 * (level + 1)) ' ' ++
      (if k.contains ' ' then quoteChar :: k ++ [quoteChar] else k) ++
      ':' :: ' ' ::
      (match v with
       | .obj fs => serializeObject (.obj fs) (level + 1)
       | .str s => quoteChar :: jsEscapeString s ++ [quoteChar]) ++
      [',']) :: serializeFields rest level

end

/-- `JsFormatHandler.save`: `export default ${body};\n`. -/
def jsSave (translation : JsValue) : Str :=
  "export default ".toList ++ serializeObject translation 0 ++ [';', '\n']

/-! ## `JsFormatHandler.parseContent`
(src/lib/formatHandlers/JsFormatHandler.js, lines 59-109) -/

/-- Match the regex `\s+` at the head of the string. -/
def skipWs1 (s : Str) : Option Str :=
  match s with
  | c :: rest =>
    if isJsSpace c then some (rest.dropWhile isJsSpace) else none
  | [] => none

/-- The lazy capture `[\s\S]*?\n\};?` of extraction pattern 1: everything up
to and including the first LF-brace pair, plus a directly following
semicolon. -/
def captureToNlBrace : Str → Option Str
  | [] => none
  | '\n' :: '\x7d' :: ';' :: _ => some ['\n', '\x7d', ';']
  | '\n' :: '\x7d' :: _ => some ['\n', '\x7d']
  | c :: rest => (captureToNlBrace rest).map (fun r => c :: r)

/-- The lazy capture `[\s\S]*?\};?` of extraction pattern 2. -/
def captureToBrace : Str → Option Str
  | [] => none
  | '\x7d' :: ';' :: _ => some ['\x7d', ';']
  | '\x7d' :: _ => some ['\x7d']
  | c :: rest => (captureToBrace rest).map (fun r => c :: r)

/-- One attempt to match `export\s+default\s+(\{<capture>)` at the current
position. -/
def matchExportDefault (capture : Str → Option Str) (s : Str) : Option Str :=
  if "export".toList.isPrefixOf s then
    match skipWs1 (s.drop 6) with
    | none => none
    | some s2 =>
      if "default".toList.isPrefixOf s2 then
        match skipWs1 (s2.drop 7) with
        | none => none
        | some s3 =>
          match s3 with
          | '\x7b' :: rest => (capture rest).map (fun r => '\x7b' :: r)
          | _ => none
      else none
  else none

/-- Regex search: try the pattern at every position, left to right. -/
def scanFor (capture : Str → Option Str) : Str → Option Str
  | [] => matchExportDefault capture []
  | c :: rest =>
    match matchExportDefault capture (c :: rest) with
    | some r => some r
    | none => scanFor capture rest

/-- `JsFormatHandler.#extractObjectFromModule`: pattern 1 (requiring an LF
before the closing brace) first, then pattern 2; `none` models the thrown
"Could not find valid export default statement". -/
def extractObjectFromModule (content : Str) : Option Str :=
  match scanFor captureToNlBrace content with
  | some r => some r
  | none => scanFor captureToBrace content

/-- `jsObjectStr.replace(/;+\s*$/, '')`. -/
def stripSemiEnd (s : Str) : Str :=
  let revWs := s.reverse.dropWhile isJsSpace
  match revWs with
  | ';' :: _ => (revWs.dropWhile (fun c => c = ';')).reverse
  | _ => s

/-- JS single-character string escapes (`'\n'`, `'\\'`, `'\''`, …; an
unrecognized escape is the character itself). -/
def unescapeChar (c : Char) : Char :=
  if c = 'n' then '\n'
  else if c = 'r' then '\r'
  else if c = 't' then '\t'
  else if c = 'b' then '\x08'
  else if c = 'f' then '\x0c'
  else if c = 'v' then '\x0b'
  else if c = '0' then '\x00'
  else c

/-- Parse a single-quoted JS string body (opening quote already consumed),
returning the content and the remainder after the closing quote. -/
def parseStrBody : Str → Option (Str × Str)
  | [] => none
  | '\\' :: c :: rest =>
    (parseStrBody rest).map (fun r => (unescapeChar c :: r.1, r.2))
  | c :: rest =>
    if c = quoteChar then some ([], rest)
    else (parseStrBody rest).map (fun r => (c :: r.1, r.2))

def dropWs (s : Str) : Str := s.dropWhile isJsSpace

mutual

/-- Modelled from the spec (§4.3, §9): `#evaluateJsObject` hands the extracted
text to the host `eval` (in parentheses), which is not part of this
repository; on the object-literal subset the serializer emits it is modelled
by this restricted literal parser — objects with unquoted or single-quoted
keys, single-quoted string leaves with JS escapes, nesting, and trailing
commas. -/
def parseLitValue : Nat → Str → Option (JsValue × Str)
  | 0, _ => none
  | fuel + 1, s =>
    match dropWs s with
    | '\x7b' :: rest =>
      (parseLitFields fuel rest).map (fun r => (JsValue.obj r.1, r.2))
    | c :: rest =>
      if c = quoteChar then
        (parseStrBody rest).map (fun r => (JsValue.str r.1, r.2))
      else none
    | [] => none

def parseLitFields : Nat → Str → Option (List (Str × JsValue) × Str)
  | 0, _ => none
  | fuel + 1, s =>
    match dropWs s with
    | '\x7d' :: rest => some ([], rest)
    | s2 =>
      let keyRes : Option (Str × Str) :=
        match s2 with
        | c :: rest =>
          if c = quoteChar then parseStrBody rest
          else
            let key := s2.takeWhile (fun c => !(c = ':' || isJsSpace c))
            if key = [] then none else some (key, s2.drop key.length)
        | [] => none
      match keyRes with
      | none => none
      | some (key, after) =>
        match dropWs after with
        | ':' :: afterColon =>
          match parseLitValue fuel afterColon with
          | none => none
          | some (v, rest2) =>
            match dropWs rest2 with
            | ',' :: rest3 =>
              (parseLitFields fuel rest3).map
                (fun r => ((key, v) :: r.1, r.2))
            | '\x7d' :: rest3 => some ([(key, v)], rest3)
            | _ => none
        | _ => none

end

/-- `JsFormatHandler.#evaluateJsObject`: strip trailing semicolons, then
evaluate the literal (see `parseLitValue`). -/
def evaluateJsObject (s : Str) : Option JsValue :=
  let cleaned := stripSemiEnd s
  match parseLitValue (cleaned.length + 1) cleaned with
  | some (v, rest) => if dropWs rest = [] then some v else none
  | none => none

/-- `JsFormatHandler.parseContent`. -/
def jsParseContent (content : Str) : Option JsValue :=
  (extractObjectFromModule content).bind evaluateJsObject

/-! ## The `pull`/`push` orchestration (src/unnamed/part_002) -/

/-- Error taxonomy of the spec (§7).  The modelled `pull`/`push` paths never
construct one — external-call failures are out of scope — but the result type
records that the operations could in principle surface an error. -/
inductive SyncError where
  | notFound : Str → SyncError

def FormatKind.extension : FormatKind → Str
  | .json => ".json".toList
  | .js => ".js".toList

def FormatKind.save : FormatKind → JsValue → Str
  | .json => fun t => jsonStringifyPretty t 0
  | .js => jsSave

/-- `BaseFormatHandler.generateFilePath`: `path.join(dir, langCode + ext)`. -/
def generateFilePath (dir langCode ext : Str) : Str :=
  dir ++ '/' :: langCode ++ ext

/-- The remote spreadsheet and its data, as `pull` sees them. -/
structure SheetsWorld where
  sheetTitles : List Str
  sheetData : Str → List (List Str)

structure PullOutput where
  translations : List (Str × JsValue)
  writes : List (Str × Str)

/-- The tail of `pull` once a worksheet is resolved: fetch, decode, unflatten
when the format is `js`, and write one file per language. -/
def pullFrom (w : SheetsWorld) (translationDir target format : Str) :
    Except SyncError PullOutput :=
  let data := w.sheetData target
  let languageDataFlat := processDataByLanguage data
  let languageData : List (Str × JsValue) :=
    if jsToLower format = "js".toList then
      languageDataFlat.map (fun lv =>
        (lv.1, JsValue.obj (unflattenObjectFromMap (toJsMap lv.2))))
    else
      languageDataFlat.map (fun lv => (lv.1, JsValue.obj (toJsMap lv.2)))
  let handler := (getFormatHandler format).1
  let writes := languageData.map (fun lv =>
    (generateFilePath translationDir lv.1 handler.extension,
      handler.save lv.2))
  .ok ⟨languageData, writes⟩

/-- `I18nSyncer.pull` (lines 176-233).  With no usable sheet name (`''` is
falsy) the worksheet list is consulted; an empty list logs
"No worksheets found" and returns the empty mapping — nothing is thrown and
nothing is written. -/
def pullModel (w : SheetsWorld) (translationDir : Str)
    (sheetName : Option Str) (format : Str) : Except SyncError PullOutput :=
  let resolved : Option Str :=
    match sheetName with
    | some n => if n = [] then none else some n
    | none => none
  match resolved with
  | some target => pullFrom w translationDir target format
  | none =>
    match w.sheetTitles with
    | [] => .ok ⟨[], []⟩
    | first :: _ => pullFrom w translationDir first format

/-- The filesystem and remote spreadsheet, as `push` sees them.
`parsedFile` is the outcome of `formatHandler.read` on a path — reading plus
`JSON.parse`/`eval`, both host builtins — `none` meaning the read or parse
threw (the file is skipped with a warning). -/
structure PushWorld where
  sheetTitles : List Str
  dirExists : Str → Bool
  dirFiles : Str → List Str
  parsedFile : Str → Option JsValue

structure PushOutput where
  success : Bool
  sheetWrites : List (Str × List (List Str))

/-- `file.endsWith(formatHandler.extension)`. -/
def endsWith (s ext : Str) : Bool := ext.isSuffixOf s

/-- `path.basename(file, ext)`. -/
def basenameStrip (file ext : Str) : Str :=
  if ext.isSuffixOf file then file.take (file.length - ext.length) else file

/-- `path.join(dir, file)`. -/
def pathJoin (dir file : Str) : Str := dir ++ '/' :: file

/-- `I18nSyncer.push` (lines 244-428): directory check, worksheet resolution,
per-file read/parse with skip-on-failure, sort, flatten, key merge, row
building, and the single clear-and-update remote write.  All cells of the
built sheet are strings already, so the final null/undefined sanitization
pass is the identity and is not repeated here. -/
def pushModel (w : PushWorld) (sourceDir : Str) (sheetName : Option Str)
    (format : Str) (mainLanguage : Str) : Except SyncError PushOutput :=
  if w.dirExists sourceDir = false then .ok ⟨false, []⟩
  else
    let handler := (getFormatHandler format).1
    let resolved : Option Str :=
      match sheetName with
      | some n => if n = [] then none else some n
      | none => none
    let target? : Option Str :=
      match resolved with
      | some t => some t
      | none =>
        match w.sheetTitles with
        | [] => none
        | first :: _ => some first
    match target? with
    | none => .ok ⟨false, []⟩
    | some target =>
      let languageFiles :=
        ((w.dirFiles sourceDir).filter
            (fun f => endsWith f handler.extension)).filterMap
          (fun f => (w.parsedFile (pathJoin sourceDir f)).map
            (fun content => (basenameStrip f handler.extension, content)))
      if languageFiles.isEmpty then .ok ⟨false, []⟩
      else
        let sorted := sortFiles mainLanguage languageFiles
        let flat := flattenedByLangOf sorted
        let allKeys := mergeAllKeys sorted flat mainLanguage
        let headers := pushHeadersOf sorted
        let rows := allKeys.map (buildRow (sorted.map Prod.fst) flat)
        .ok ⟨true, [(target, headers :: rows)]⟩

/-! ## Leaf lists: the pairs emitted by `#flattenObject`, in DFS order -/

mutual

/-- The `(dottedKey, leaf)` pairs `#flattenObject` emits for `v` under `pre`. -/
def dottedLeaves (v : JsValue) (pre : Str) : List (Str × JsValue) :=
  match v with
  | .str s => [(pre, .str s)]
  | .obj fields => dottedLeavesF fields pre

def dottedLeavesF (fields : List (Str × JsValue)) (pre : Str) :
    List (Str × JsValue) :=
  match fields with
  | [] => []
  | (k, w) :: rest => dottedLeaves w (joinKey pre k) ++ dottedLeavesF rest pre

end

mutual

/-- The same leaves with their keys as segment paths instead of dotted keys. -/
def pathLeaves (v : JsValue) : List (List Str × JsValue) :=
  match v with
  | .str s => [([], .str s)]
  | .obj fields => pathLeavesF fields

def pathLeavesF (fields : List (Str × JsValue)) : List (List Str × JsValue) :=
  match fields with
  | [] => []
  | (k, w) :: rest =>
    (pathLeaves w).map (fun q => (k :: q.1, q.2)) ++ pathLeavesF rest

end


/-! ## Basic lemmas about the JS-object primitives -/

theorem jsGet_jsSet_self {α : Type} (m : List (Str × α)) (k : Str) (v : α) :
    jsGet (jsSet m k v) k = some v := by
  induction m with
  | nil => simp [jsSet, jsGet]
  | cons p rest ih =>
    by_cases h : p.1 = k
    · simp [jsSet, h, jsGet]
    · simp [jsSet, h, jsGet, ih]

theorem jsGet_jsSet_ne {α : Type} (m : List (Str × α)) {k k2 : Str} (v : α)
    (h : k2 ≠ k) : jsGet (jsSet m k v) k2 = jsGet m k2 := by
  induction m with
  | nil => simp [jsSet, jsGet, Ne.symm h]
  | cons p rest ih =>
    by_cases hp : p.1 = k
    · subst hp
      simp [jsSet, jsGet, Ne.symm h, ih]
    · by_cases hq : p.1 = k2
      · simp [jsSet, jsGet, hp, hq, h]
      · simp [jsSet, jsGet, hp, hq, ih]

theorem jsSet_jsSet_same {α : Type} (m : List (Str × α)) (k : Str) (a b : α) :
    jsSet (jsSet m k a) k b = jsSet m k b := by
  induction m with
  | nil => simp [jsSet]
  | cons p rest ih =>
    by_cases h : p.1 = k
    · simp [jsSet, h]
    · simp [jsSet, h, ih]

theorem jsSet_eq_append {α : Type} (m : List (Str × α)) (k : Str) (v : α)
    (h : k ∉ m.map Prod.fst) : jsSet m k v = m ++ [(k, v)] := by
  induction m with
  | nil => simp [jsSet]
  | cons p rest ih =>
    simp only [List.map_cons, List.mem_cons] at h
    push_neg at h
    simp [jsSet, Ne.symm h.1, ih h.2]

theorem jsGet_eq_none {α : Type} (m : List (Str × α)) (k : Str)
    (h : k ∉ m.map Prod.fst) : jsGet m k = none := by
  induction m with
  | nil => rfl
  | cons p rest ih =>
    simp only [List.map_cons, List.mem_cons] at h
    push_neg at h
    simp [jsGet, Ne.symm h.1, ih h.2]

/-! ## Lemmas about `splitDot` and `joinKey` -/

theorem splitDot_ne_nil (s : Str) : splitDot s ≠ [] := by
  cases s with
  | nil => simp [splitDot]
  | cons c rest =>
    simp only [splitDot]
    split
    · simp
    · split <;> simp

theorem splitDot_dotFree {s : Str} (h : '.' ∉ s) :
    splitDot s = [s] := by
  induction s with
  | nil => rfl
  | cons c rest ih =>
    simp only [List.mem_cons] at h
    push_neg at h
    have hc : ¬ c = '.' := fun hh => h.1 hh.symm
    simp [splitDot, hc, ih h.2]

theorem splitDot_append_dot {k : Str} (xs : Str)
    (h : '.' ∉ k) :
    splitDot (xs ++ '.' :: k) = splitDot xs ++ [k] := by
  induction xs with
  | nil => simp [splitDot, splitDot_dotFree h]
  | cons c rest ih =>
    by_cases hc : c = '.'
    · simp [splitDot, hc, ih]
    · have hne := splitDot_ne_nil rest
      cases hsp : splitDot rest with
      | nil => exact absurd hsp hne
      | cons s ss =>
        simp only [List.cons_append, splitDot, hc, if_false, List.append_eq]
        rw [ih, hsp]
        simp

theorem joinSegs_splitDot (s : Str) : joinSegs (splitDot s) = s := by
  induction s with
  | nil => rfl
  | cons c rest ih =>
    by_cases hc : c = '.'
    · subst hc
      have hne := splitDot_ne_nil rest
      simp only [splitDot, if_pos rfl]
      cases hsp : splitDot rest with
      | nil => exact absurd hsp hne
      | cons s ss =>
        rw [hsp] at ih
        simp [joinSegs, ← ih]
    · simp only [splitDot, hc, if_false]
      have hne := splitDot_ne_nil rest
      cases hsp : splitDot rest with
      | nil => exact absurd hsp hne
      | cons s ss =>
        rw [hsp] at ih
        cases ss with
        | nil => simpa [joinSegs] using ih
        | cons t ts => simpa [joinSegs] using ih

theorem splitDot_injective {a b : Str} (h : splitDot a = splitDot b) : a = b := by
  have := joinSegs_splitDot a
  rw [h, joinSegs_splitDot] at this
  exact this.symm

mutual

theorem flattenObject_eq_foldl : ∀ (v : JsValue) (pre : Str)
    (out : List (Str × JsValue)),
    flattenObject v pre out
      = (dottedLeaves v pre).foldl (fun o p => jsSet o p.1 p.2) out
  | .str s, pre, out => by
    simp [flattenObject, dottedLeaves]
  | .obj fields, pre, out => by
    simp only [flattenObject, dottedLeaves]
    exact flattenFields_eq_foldl fields pre out

theorem flattenFields_eq_foldl : ∀ (fields : List (Str × JsValue)) (pre : Str)
    (out : List (Str × JsValue)),
    flattenFields fields pre out
      = (dottedLeavesF fields pre).foldl (fun o p => jsSet o p.1 p.2) out
  | [], _, _ => by simp [flattenFields, dottedLeavesF]
  | (k, w) :: rest, pre, out => by
    simp only [flattenFields, dottedLeavesF, List.foldl_append]
    rw [← flattenObject_eq_foldl w (joinKey pre k) out]
    exact flattenFields_eq_foldl rest pre _

end

theorem foldl_jsSet_eq_append {α : Type} :
    ∀ (ps : List (Str × α)) (out : List (Str × α)),
    (ps.map Prod.fst).Nodup → (∀ k ∈ ps.map Prod.fst, k ∉ out.map Prod.fst) →
    ps.foldl (fun o p => jsSet o p.1 p.2) out = out ++ ps
  | [], out, _, _ => by simp
  | p :: rest, out, hnd, hdis => by
    simp only [List.map_cons, List.nodup_cons] at hnd
    simp only [List.foldl_cons]
    rw [jsSet_eq_append out p.1 p.2
      (hdis p.1 (by simp only [List.map_cons, List.mem_cons]; left; trivial))]
    have hdis2 : ∀ k ∈ rest.map Prod.fst, k ∉ (out ++ [p]).map Prod.fst := by
      intro k hk
      simp only [List.map_append, List.mem_append]
      push_neg
      refine ⟨hdis k (by simp only [List.map_cons, List.mem_cons]; exact Or.inr hk), ?_⟩
      simp only [List.map_cons, List.map_nil, List.mem_singleton]
      intro hkp
      exact hnd.1 (hkp ▸ hk)
    rw [foldl_jsSet_eq_append rest (out ++ [p]) hnd.2 hdis2]
    simp

/-! ## Unpacking the Boolean well-formedness predicates -/

theorem wfFields_cons_iff {k : Str} {w : JsValue} {rest : List (Str × JsValue)} :
    wfFields ((k, w) :: rest) = true ↔
      k ≠ [] ∧ '.' ∉ k ∧ k ∉ rest.map Prod.fst ∧
        wfEntry w = true ∧ wfFields rest = true := by
  simp [wfFields, and_assoc]

theorem wfEntry_obj_iff {gs : List (Str × JsValue)} :
    wfEntry (.obj gs) = true ↔ gs ≠ [] ∧ wfFields gs = true := by
  simp [wfEntry]

theorem keysDotFree_cons_iff {k : Str} {w : JsValue}
    {rest : List (Str × JsValue)} :
    keysDotFree ((k, w) :: rest) = true ↔
      k ≠ [] ∧ '.' ∉ k ∧ keysDotFreeEntry w = true ∧
        keysDotFree rest = true := by
  simp [keysDotFree, and_assoc]

theorem wfFields_keysDotFree :
    ∀ (fields : List (Str × JsValue)), wfFields fields = true →
      keysDotFree fields = true
  | [], _ => rfl
  | (k, w) :: rest, hwf => by
    obtain ⟨h1, h2, _, hw, hrest⟩ := wfFields_cons_iff.mp hwf
    refine keysDotFree_cons_iff.mpr ⟨h1, h2, ?_, wfFields_keysDotFree rest hrest⟩
    cases w with
    | str s => rfl
    | obj gs =>
      obtain ⟨-, hgs⟩ := wfEntry_obj_iff.mp hw
      simpa [keysDotFreeEntry] using wfFields_keysDotFree gs hgs

/-! ## Structural lemmas about the leaf lists -/

theorem pathLeavesF_fst_ne_nil :
    ∀ (fields : List (Str × JsValue)), ∀ q ∈ pathLeavesF fields, q.1 ≠ []
  | [], q, hq => by simp [pathLeavesF] at hq
  | (k, w) :: rest, q, hq => by
    simp only [pathLeavesF, List.mem_append, List.mem_map] at hq
    rcases hq with ⟨r, _, hr⟩ | hq
    · rw [← hr]
      simp
    · exact pathLeavesF_fst_ne_nil rest q hq

theorem pathLeavesF_head :
    ∀ (fields : List (Str × JsValue)), ∀ q ∈ pathLeavesF fields,
      ∃ k ∈ fields.map Prod.fst, ∃ t, q.1 = k :: t
  | [], q, hq => by simp [pathLeavesF] at hq
  | (k, w) :: rest, q, hq => by
    simp only [pathLeavesF, List.mem_append, List.mem_map] at hq
    rcases hq with ⟨r, _, hr⟩ | hq
    · exact ⟨k, by simp, r.1, by rw [← hr]⟩
    · obtain ⟨k2, hk2, t, ht⟩ := pathLeavesF_head rest q hq
      exact ⟨k2, by simp [List.mem_cons]; right; simpa using hk2, t, ht⟩

theorem pathLeavesF_ne_nil :
    ∀ (fields : List (Str × JsValue)), wfFields fields = true → fields ≠ [] →
      pathLeavesF fields ≠ []
  | [], _, hne => absurd rfl hne
  | (k, w) :: rest, hwf, _ => by
    obtain ⟨-, -, -, hw, -⟩ := wfFields_cons_iff.mp hwf
    cases w with
    | str s => simp [pathLeavesF, pathLeaves]
    | obj gs =>
      obtain ⟨hne, hgs⟩ := wfEntry_obj_iff.mp hw
      have := pathLeavesF_ne_nil gs hgs hne
      simp only [pathLeavesF, pathLeaves]
      intro hcontra
      rcases List.append_eq_nil.mp hcontra with ⟨hl, -⟩
      exact this (List.map_eq_nil_iff.mp hl)

theorem pathLeavesF_keys_nodup :
    ∀ (fields : List (Str × JsValue)), wfFields fields = true →
      ((pathLeavesF fields).map Prod.fst).Nodup
  | [], _ => by simp [pathLeavesF]
  | (k, w) :: rest, hwf => by
    obtain ⟨-, -, hkrest, hw, hrest⟩ := wfFields_cons_iff.mp hwf
    simp only [pathLeavesF, List.map_append]
    refine List.Nodup.append ?_ (pathLeavesF_keys_nodup rest hrest) ?_
    · have hinj : Function.Injective (fun t : List Str => k :: t) := by
        intro a b hab
        simpa using hab
      cases w with
      | str s => simp [pathLeaves]
      | obj gs =>
        obtain ⟨-, hgs⟩ := wfEntry_obj_iff.mp hw
        have := pathLeavesF_keys_nodup gs hgs
        simp only [pathLeaves, List.map_map]
        have hcomp :
            (Prod.fst ∘ fun q : List Str × JsValue => (k :: q.1, q.2))
              = (fun t : List Str => k :: t) ∘ Prod.fst := rfl
        rw [hcomp, ← List.map_map]
        exact List.Nodup.map hinj this
    · intro x hx hx2
      simp only [List.map_map, List.mem_map] at hx
      obtain ⟨r, -, hr⟩ := hx
      simp only [List.mem_map] at hx2
      obtain ⟨q, hq, hq2⟩ := hx2
      obtain ⟨k2, hk2, t, ht⟩ := pathLeavesF_head rest q hq
      rw [← hq2, ht] at hr
      have : k2 = k := by
        have := congrArg (fun l => l.headD []) hr
        simpa using this.symm
      exact hkrest (this ▸ hk2)

/-! ## Dotted keys vs segment paths -/

theorem joinKey_ne_nil {pre k : Str} (h : k ≠ [] ∨ pre ≠ []) :
    joinKey pre k ≠ [] := by
  unfold joinKey
  split
  · rcases h with h | h
    · exact h
    · exact absurd (by assumption) h
  · simp

mutual

theorem dottedLeaves_map_path_val :
    ∀ (w : JsValue) (pre : Str) (P : List Str),
      keysDotFreeEntry w = true → splitDot pre = P → pre ≠ [] →
      (dottedLeaves w pre).map (fun p => (splitDot p.1, p.2))
        = (pathLeaves w).map (fun q => (P ++ q.1, q.2))
  | .str s, _, _, _, hs, _ => by
    simp [dottedLeaves, pathLeaves, hs]
  | .obj gs, pre, P, hdf, hs, hne => by
    simp only [dottedLeaves, pathLeaves]
    exact dottedLeaves_map_path gs pre P (by simpa [keysDotFreeEntry] using hdf)
      (Or.inr ⟨hs, hne⟩)

theorem dottedLeaves_map_path :
    ∀ (fields : List (Str × JsValue)) (pre : Str) (P : List Str),
      keysDotFree fields = true →
      ((pre = [] ∧ P = []) ∨ (splitDot pre = P ∧ pre ≠ [])) →
      (dottedLeavesF fields pre).map (fun p => (splitDot p.1, p.2))
        = (pathLeavesF fields).map (fun q => (P ++ q.1, q.2))
  | [], _, _, _, _ => by simp [dottedLeavesF, pathLeavesF]
  | (k, w) :: rest, pre, P, hdf, hpre => by
    obtain ⟨hk, hkdot, hw, hrest⟩ := keysDotFree_cons_iff.mp hdf
    have hsplit : splitDot (joinKey pre k) = P ++ [k] := by
      rcases hpre with ⟨h1, h2⟩ | ⟨h1, h2⟩
      · subst h1; subst h2
        simpa [joinKey] using splitDot_dotFree hkdot
      · rw [joinKey, if_neg h2, splitDot_append_dot pre hkdot, h1]
    have hjne : joinKey pre k ≠ [] := joinKey_ne_nil (Or.inl hk)
    simp only [dottedLeavesF, pathLeavesF, List.map_append]
    rw [dottedLeaves_map_path_val w (joinKey pre k) (P ++ [k])
        (by cases w with
            | str s => rfl
            | obj gs => simpa [keysDotFreeEntry] using hw)
        hsplit hjne,
      dottedLeaves_map_path rest pre P hrest hpre]
    simp [List.map_map, Function.comp]

end

mutual

theorem dottedLeaves_fst_ne_nil_val :
    ∀ (w : JsValue) (pre : Str), keysDotFreeEntry w = true → pre ≠ [] →
      ∀ p ∈ dottedLeaves w pre, p.1 ≠ []
  | .str s, pre, _, hne, p, hp => by
    simp only [dottedLeaves, List.mem_singleton] at hp
    rw [hp]
    exact hne
  | .obj gs, pre, hdf, hne, p, hp => by
    exact dottedLeaves_fst_ne_nil gs pre
      (by simpa [keysDotFreeEntry] using hdf) (Or.inr hne) p hp

theorem dottedLeaves_fst_ne_nil :
    ∀ (fields : List (Str × JsValue)) (pre : Str),
      keysDotFree fields = true → (keysDotFree fields = true ∨ pre ≠ []) →
      ∀ p ∈ dottedLeavesF fields pre, p.1 ≠ []
  | [], _, _, _, p, hp => by simp [dottedLeavesF] at hp
  | (k, w) :: rest, pre, hdf, _, p, hp => by
    obtain ⟨hk, -, hw, hrest⟩ := keysDotFree_cons_iff.mp hdf
    simp only [dottedLeavesF, List.mem_append] at hp
    rcases hp with hp | hp
    · exact dottedLeaves_fst_ne_nil_val w (joinKey pre k)
        (by cases w with
            | str s => rfl
            | obj gs => simpa [keysDotFreeEntry] using hw)
        (joinKey_ne_nil (Or.inl hk)) p hp
    · exact dottedLeaves_fst_ne_nil rest pre hrest (Or.inl hrest) p hp

end

/-! ## Rebuilding an object from its leaves -/

/-- The skip-empty-key fold of `#unflattenObjectFromMap`, rewritten over the
`splitDot` segment paths (valid when no key is empty). -/
theorem unflatten_foldl_eq :
    ∀ (kv : List (Str × JsValue)) (t : List (Str × JsValue)),
      (∀ p ∈ kv, p.1 ≠ []) →
      kv.foldl (fun out p =>
          if p.1 = [] then out else setNestedValue out (splitDot p.1) p.2) t
        = (kv.map (fun p => (splitDot p.1, p.2))).foldl
            (fun out q => setNestedValue out q.1 q.2) t
  | [], _, _ => rfl
  | p :: rest, t, h => by
    simp only [List.foldl_cons, List.map_cons, if_neg (h p (by simp))]
    exact unflatten_foldl_eq rest _ (fun q hq => h q (by simp [hq]))

theorem childFields_jsSet_obj (t : List (Str × JsValue)) (k : Str)
    (c : List (Str × JsValue)) : childFields (jsSet t k (.obj c)) k = c := by
  simp [childFields, jsGet_jsSet_self]

theorem childFields_of_absent {t : List (Str × JsValue)} {k : Str}
    (h : k ∉ t.map Prod.fst) : childFields t k = [] := by
  simp [childFields, jsGet_eq_none t k h]

/-- Folding `#setNestedValue` over a block of paths that all start with the
same head `k` builds the whole block inside the child object at `k`. -/
theorem foldl_setNested_grouped :
    ∀ (qs : List (List Str × JsValue)) (t : List (Str × JsValue)) (k : Str),
      qs ≠ [] → (∀ q ∈ qs, q.1 ≠ []) →
      qs.foldl (fun t2 q => setNestedValue t2 (k :: q.1) q.2) t
        = jsSet t k (.obj (qs.foldl
            (fun c q => setNestedValue c q.1 q.2) (childFields t k)))
  | [], _, _, hne, _ => absurd rfl hne
  | [q], t, k, _, hq => by
    have hq1 : q.1 ≠ [] := hq q (by simp)
    cases hqq : q.1 with
    | nil => exact absurd hqq hq1
    | cons a as =>
      simp [setNestedValue, hqq]
  | q :: q2 :: qs, t, k, _, hq => by
    have hq1 : q.1 ≠ [] := hq q (by simp)
    have hstep : setNestedValue t (k :: q.1) q.2
        = jsSet t k (.obj (setNestedValue (childFields t k) q.1 q.2)) := by
      cases hqq : q.1 with
      | nil => exact absurd hqq hq1
      | cons a as => rfl
    calc (q :: q2 :: qs).foldl (fun t2 r => setNestedValue t2 (k :: r.1) r.2) t
        = (q2 :: qs).foldl (fun t2 r => setNestedValue t2 (k :: r.1) r.2)
            (setNestedValue t (k :: q.1) q.2) := rfl
      _ = jsSet (setNestedValue t (k :: q.1) q.2) k
            (.obj ((q2 :: qs).foldl (fun c r => setNestedValue c r.1 r.2)
              (childFields (setNestedValue t (k :: q.1) q.2) k))) :=
          foldl_setNested_grouped (q2 :: qs) _ k (by simp)
            (fun r hr => hq r (List.mem_cons_of_mem q hr))
      _ = jsSet t k (.obj ((q2 :: qs).foldl (fun c r => setNestedValue c r.1 r.2)
            (setNestedValue (childFields t k) q.1 q.2))) := by
          rw [hstep, childFields_jsSet_obj, jsSet_jsSet_same]
      _ = jsSet t k (.obj ((q :: q2 :: qs).foldl
            (fun c r => setNestedValue c r.1 r.2) (childFields t k))) := rfl

/-- Folding `#setNestedValue` over the segment-path leaves of a well-formed
field list, into a target whose keys are disjoint from the top-level keys,
appends exactly that field list. -/
theorem pathFold_reconstruct :
    ∀ (fields : List (Str × JsValue)) (t : List (Str × JsValue)),
      wfFields fields = true →
      (∀ k ∈ fields.map Prod.fst, k ∉ t.map Prod.fst) →
      (pathLeavesF fields).foldl (fun out q => setNestedValue out q.1 q.2) t
        = t ++ fields
  | [], t, _, _ => by simp [pathLeavesF]
  | (k, w) :: rest, t, hwf, hdis => by
    obtain ⟨-, -, hkrest, hw, hrest⟩ := wfFields_cons_iff.mp hwf
    have hkt : k ∉ t.map Prod.fst := hdis k (by simp)
    have hdis2 : ∀ k2 ∈ rest.map Prod.fst,
        k2 ∉ (t ++ [(k, w)]).map Prod.fst := by
      intro k2 hk2
      simp only [List.map_append, List.mem_append, List.map_cons, List.map_nil,
        List.mem_singleton]
      push_neg
      refine ⟨hdis k2 (by simp [List.mem_cons]; right; simpa using hk2), ?_⟩
      intro hcontra
      exact hkrest (hcontra ▸ hk2)
    cases w with
    | str s =>
      simp only [pathLeavesF, pathLeaves, List.map_cons, List.map_nil,
        List.singleton_append, List.foldl_cons]
      rw [show setNestedValue t [k] (JsValue.str s) = jsSet t k (JsValue.str s)
          from by simp [setNestedValue],
        jsSet_eq_append t k (JsValue.str s) hkt,
        pathFold_reconstruct rest (t ++ [(k, JsValue.str s)]) hrest hdis2]
      simp
    | obj gs =>
      obtain ⟨hgne, hgs⟩ := wfEntry_obj_iff.mp hw
      simp only [pathLeavesF, pathLeaves, List.foldl_append, List.foldl_map]
      rw [foldl_setNested_grouped (pathLeavesF gs) t k
        (pathLeavesF_ne_nil gs hgs hgne) (pathLeavesF_fst_ne_nil gs),
        childFields_of_absent hkt,
        pathFold_reconstruct gs [] hgs (by simp),
        List.nil_append,
        jsSet_eq_append t k (JsValue.obj gs) hkt,
        pathFold_reconstruct rest (t ++ [(k, JsValue.obj gs)]) hrest hdis2]
      simp

/-- The full round-trip, assembled: flatten materializes exactly the dotted
leaves, whose keys are distinct, non-empty and split back to the segment
paths; folding `#setNestedValue` over those paths rebuilds the fields. -/
theorem unflatten_flatten_roundtrip (fields : List (Str × JsValue))
    (h : wfFields fields = true) :
    unflattenObjectFromMap (flattenObject (.obj fields) [] []) = fields := by
  have hdf := wfFields_keysDotFree fields h
  have hmap := dottedLeaves_map_path fields [] [] hdf (Or.inl ⟨rfl, rfl⟩)
  have hnodupPaths := pathLeavesF_keys_nodup fields h
  have hfst : (dottedLeavesF fields []).map (fun p => splitDot p.1)
      = (pathLeavesF fields).map Prod.fst := by
    have := congrArg (List.map Prod.fst) hmap
    simpa [List.map_map, Function.comp] using this
  have hnodupKeys : ((dottedLeavesF fields []).map Prod.fst).Nodup := by
    apply List.Nodup.of_map splitDot
    have h2 : ((dottedLeavesF fields []).map Prod.fst).map splitDot
        = (pathLeavesF fields).map Prod.fst := by
      rw [List.map_map]
      simpa [Function.comp] using hfst
    rw [h2]
    exact hnodupPaths
  have hflat : flattenObject (.obj fields) [] [] = dottedLeavesF fields [] := by
    rw [flattenObject_eq_foldl]
    simp only [dottedLeaves]
    rw [foldl_jsSet_eq_append _ [] hnodupKeys (by simp)]
    simp
  have hne := dottedLeaves_fst_ne_nil fields [] hdf (Or.inl hdf)
  rw [hflat]
  unfold unflattenObjectFromMap
  rw [unflatten_foldl_eq _ [] hne, hmap]
  have hid : (pathLeavesF fields).map (fun q => (([] : List Str) ++ q.1, q.2))
      = pathLeavesF fields := by
    simp
  rw [hid]
  simpa using pathFold_reconstruct fields [] h (by simp)

/-- **C1, counterexample.**  The claim as stated is false: the nested mapping
`x = {a: {}}` has no key containing `'.'` and no empty-string key anywhere
(`keysDotFree`), yet `unflattenObjectFromMap (flattenObject x '' {})` is the
empty object, not `x` — an empty object value produces no flat entry, so the
round-trip loses it. -/
theorem C1_counterexample :
    keysDotFree [(['a'], JsValue.obj [])] = true ∧
      unflattenObjectFromMap
          (flattenObject (JsValue.obj [(['a'], JsValue.obj [])]) [] [])
        ≠ [(['a'], JsValue.obj [])] := by
  refine ⟨rfl, ?_⟩
  decide

/-- **C1 (amended).**  For every nested mapping `x` whose keys at every level
are non-empty, contain no literal `'.'` and are pairwise distinct, and in which
no value is an empty mapping, `unflattenObjectFromMap (flattenObject x '' {})`
is structurally equal to `x` (deep equality of the ordered field lists). -/
theorem C1_roundtrip (fields : List (Str × JsValue))
    (h : wfFields fields = true) :
    JsValue.obj (unflattenObjectFromMap (flattenObject (JsValue.obj fields) [] []))
      = JsValue.obj fields := by
  rw [unflatten_flatten_roundtrip fields h]

/-- **C1, witness.**  The amended round-trip evaluated at the concrete nested
mapping `{a: {b: "x"}, c: "y"}`. -/
theorem C1_witness :
    wfFields [(['a'], JsValue.obj [(['b'], JsValue.str ['x'])]),
        (['c'], JsValue.str ['y'])] = true ∧
      JsValue.obj (unflattenObjectFromMap (flattenObject
          (JsValue.obj [(['a'], JsValue.obj [(['b'], JsValue.str ['x'])]),
            (['c'], JsValue.str ['y'])]) [] []))
        = JsValue.obj [(['a'], JsValue.obj [(['b'], JsValue.str ['x'])]),
            (['c'], JsValue.str ['y'])] :=
  ⟨rfl, C1_roundtrip _ rfl⟩

/-! ## C10: the two unflatten implementations -/

theorem setNestedTrimmed_eq_of_trimmed :
    ∀ (parts : List Str) (target : List (Str × JsValue)) (v : JsValue),
      (∀ s ∈ parts, jsTrim s = s) →
      setNestedTrimmed target parts v = setNestedValue target parts v
  | [], _, _, _ => rfl
  | k :: rest, target, v, h => by
    have hk : jsTrim k = k := h k (by simp)
    cases rest with
    | nil => simp [setNestedTrimmed, setNestedValue, hk]
    | cons r rs =>
      have hrec := setNestedTrimmed_eq_of_trimmed (r :: rs)
        (childFields target (jsTrim k)) v
        (fun s hs => h s (List.mem_cons_of_mem k hs))
      calc setNestedTrimmed target (k :: r :: rs) v
          = jsSet target (jsTrim k)
              (.obj (setNestedTrimmed (childFields target (jsTrim k))
                (r :: rs) v)) := rfl
        _ = jsSet target k
              (.obj (setNestedValue (childFields target k) (r :: rs) v)) := by
            rw [hrec, hk]
        _ = setNestedValue target (k :: r :: rs) v := rfl

theorem unflatten_foldl_agree :
    ∀ (kv : List (Str × JsValue)) (t : List (Str × JsValue)),
      (∀ p ∈ kv, ∀ s ∈ splitDot p.1, jsTrim s = s) →
      kv.foldl (fun out p =>
          if p.1 = [] then out else setNestedTrimmed out (splitDot p.1) p.2) t
        = kv.foldl (fun out p =>
          if p.1 = [] then out else setNestedValue out (splitDot p.1) p.2) t
  | [], _, _ => rfl
  | p :: rest, t, h => by
    simp only [List.foldl_cons]
    rw [show (if p.1 = [] then t else setNestedTrimmed t (splitDot p.1) p.2)
        = (if p.1 = [] then t else setNestedValue t (splitDot p.1) p.2) from by
      split
      · rfl
      · exact setNestedTrimmed_eq_of_trimmed (splitDot p.1) t p.2
          (h p (by simp))]
    exact unflatten_foldl_agree rest _ (fun q hq => h q (by simp [hq]))

/-- **C10, counterexample.**  On the flat input `{" a": "v"}` the two
implementations disagree: `BaseFormatHandler.#unflattenObject` trims the
segment to `"a"`, while `I18nSyncer.#unflattenObjectFromMap` keeps `" a"`. -/
theorem C10_counterexample :
    unflattenObject [([' ', 'a'], JsValue.str ['v'])]
      ≠ unflattenObjectFromMap [([' ', 'a'], JsValue.str ['v'])] := by
  decide

/-- **C10 (amended).**  The two unflatten implementations compute the same
nested mapping on every flat input all of whose keys' dot segments are
`trim()`-invariant (no leading/trailing whitespace in any segment); on keys
with whitespace-padded segments they differ. -/
theorem C10_unflatten_agree (kv : List (Str × JsValue))
    (h : ∀ p ∈ kv, ∀ s ∈ splitDot p.1, jsTrim s = s) :
    unflattenObject kv = unflattenObjectFromMap kv :=
  unflatten_foldl_agree kv [] h

/-- **C10, witness.**  Agreement evaluated at the concrete flat input
`{"a.b": "v"}`. -/
theorem C10_witness :
    unflattenObject [(['a', '.', 'b'], JsValue.str ['v'])]
      = unflattenObjectFromMap [(['a', '.', 'b'], JsValue.str ['v'])] :=
  C10_unflatten_agree _ (by decide)

/-! ## C4: characterizing `#processDataByLanguage` -/

theorem jsSet_map_fst_of_mem {α : Type} (m : List (Str × α)) (k : Str) (v : α)
    (h : k ∈ m.map Prod.fst) : (jsSet m k v).map Prod.fst = m.map Prod.fst := by
  induction m with
  | nil => simp at h
  | cons p rest ih =>
    by_cases hp : p.1 = k
    · simp [jsSet, hp]
    · simp only [List.map_cons, List.mem_cons] at h
      rcases h with h | h

      · exact absurd h.symm hp
      · simp [jsSet, hp, ih h]

/-- The initialization loop materializes one empty map for each language. -/
theorem init_maps_eq (langs : List Str) (hnd : langs.Nodup) :
    langs.foldl (fun tr lang => jsSet tr lang ([] : List (Str × Str))) []
      = langs.map (fun l => (l, [])) := by
  have h1 : langs.foldl (fun tr lang => jsSet tr lang ([] : List (Str × Str))) []
      = (langs.map (fun l => (l, ([] : List (Str × Str))))).foldl
          (fun o p => jsSet o p.1 p.2) [] := by
    rw [List.foldl_map]
  have hkeys : (langs.map (fun l => (l, ([] : List (Str × Str))))).map Prod.fst
      = langs := by
    simp [Function.comp_def]
  rw [h1, foldl_jsSet_eq_append _ [] (by rw [hkeys]; exact hnd) (by simp)]
  simp

theorem enumFrom_snd_mem {α : Type} :
    ∀ (n : Nat) (l : List α) (p : Nat × α), p ∈ List.enumFrom n l → p.2 ∈ l
  | _, [], _, hp => by simp [List.enumFrom] at hp
  | n, a :: rest, p, hp => by
    simp only [List.enumFrom, List.mem_cons] at hp
    rcases hp with hp | hp
    · simp [hp]
    · exact List.mem_cons_of_mem a (enumFrom_snd_mem (n + 1) rest p hp)

theorem innerFold_map_fst (key : Str) (row : List Str) :
    ∀ (ps : List (Nat × Str)) (tr : List (Str × List (Str × Str))),
      (∀ p ∈ ps, p.2 ∈ tr.map Prod.fst) →
      (ps.foldl (fun tr2 p =>
          jsSet tr2 p.2 (jsSet (jsGetD tr2 p.2 []) key
            (escapeNewlines (row.getD p.1 [])))) tr).map Prod.fst
        = tr.map Prod.fst
  | [], _, _ => rfl
  | p :: rest, tr, h => by
    simp only [List.foldl_cons]
    rw [innerFold_map_fst key row rest _ ?_,
      jsSet_map_fst_of_mem _ _ _ (h p (by simp))]
    intro q hq
    rw [jsSet_map_fst_of_mem _ _ _ (h p (by simp))]
    exact h q (by simp [hq])

theorem innerFold_preserve (key : Str) (row : List Str) :
    ∀ (ps : List (Nat × Str)) (tr : List (Str × List (Str × Str))) (lang : Str),
      lang ∉ ps.map Prod.snd →
      jsGet (ps.foldl (fun tr2 p =>
          jsSet tr2 p.2 (jsSet (jsGetD tr2 p.2 []) key
            (escapeNewlines (row.getD p.1 [])))) tr) lang
        = jsGet tr lang
  | [], _, _, _ => rfl
  | p :: rest, tr, lang, h => by
    simp only [List.map_cons, List.mem_cons] at h
    push_neg at h
    simp only [List.foldl_cons]
    rw [innerFold_preserve key row rest _ lang h.2,
      jsGet_jsSet_ne _ _ h.1]

theorem innerFold_at (key : Str) (row : List Str) :
    ∀ (ps : List (Nat × Str)) (tr : List (Str × List (Str × Str)))
      (j : Nat) (lang : Str),
      (ps.map Prod.snd).Nodup → (j, lang) ∈ ps →
      jsGet (ps.foldl (fun tr2 p =>
          jsSet tr2 p.2 (jsSet (jsGetD tr2 p.2 []) key
            (escapeNewlines (row.getD p.1 [])))) tr) lang
        = some (jsSet (jsGetD tr lang []) key
            (escapeNewlines (row.getD j [])))
  | [], _, _, _, _, hmem => by simp at hmem
  | p :: rest, tr, j, lang, hnd, hmem => by
    simp only [List.map_cons, List.nodup_cons] at hnd
    simp only [List.mem_cons] at hmem
    rcases hmem with hmem | hmem
    · subst hmem
      simp only [List.foldl_cons]
      rw [innerFold_preserve _ _ rest _ _ hnd.1, jsGet_jsSet_self]
    · have hlang : lang ≠ p.2 := by
        intro hcontra
        exact hnd.1 (hcontra ▸ List.mem_map_of_mem Prod.snd hmem)
      simp only [List.foldl_cons]
      rw [innerFold_at key row rest _ j lang hnd.2 hmem,
        show jsGetD (jsSet tr p.2 _) lang [] = jsGetD tr lang [] from by
          simp [jsGetD, jsGet_jsSet_ne _ _ hlang]]

theorem processRow_map_fst (headers : List Str)
    (tr : List (Str × List (Str × Str))) (row : List Str)
    (h : ∀ l ∈ headers.drop 1, l ∈ tr.map Prod.fst) :
    (processRow headers tr row).map Prod.fst = tr.map Prod.fst := by
  simp only [processRow]
  split
  · rfl
  · exact innerFold_map_fst _ row _ tr
      (fun p hp => h p.2 (enumFrom_snd_mem 1 _ p hp))

theorem processRow_at (headers : List Str)
    (tr : List (Str × List (Str × Str))) (row : List Str)
    (j : Nat) (lang : Str) (m : List (Str × Str))
    (hnd : (headers.drop 1).Nodup)
    (hj : (j, lang) ∈ List.enumFrom 1 (headers.drop 1))
    (hm : jsGet tr lang = some m) :
    jsGet (processRow headers tr row) lang = some (projRow j m row) := by
  simp only [processRow, projRow]
  split
  · simpa using hm
  · rw [innerFold_at _ row _ tr j lang (by
        rwa [show (List.enumFrom 1 (headers.drop 1)).map Prod.snd
            = headers.drop 1 from List.enumFrom_map_snd 1 _]) hj]
    simp [jsGetD, hm]

theorem decodeFold_map_fst (headers : List Str) :
    ∀ (rows : List (List Str)) (tr : List (Str × List (Str × Str))),
      (∀ l ∈ headers.drop 1, l ∈ tr.map Prod.fst) →
      (rows.foldl (processRow headers) tr).map Prod.fst = tr.map Prod.fst
  | [], _, _ => rfl
  | row :: rest, tr, h => by
    simp only [List.foldl_cons]
    have hpres := processRow_map_fst headers tr row h
    rw [decodeFold_map_fst headers rest _ (fun l hl => hpres ▸ h l hl), hpres]

theorem decodeFold_at (headers : List Str) (j : Nat) (lang : Str)
    (hnd : (headers.drop 1).Nodup)
    (hj : (j, lang) ∈ List.enumFrom 1 (headers.drop 1)) :
    ∀ (rows : List (List Str)) (tr : List (Str × List (Str × Str)))
      (m : List (Str × Str)), jsGet tr lang = some m →
      jsGet (rows.foldl (processRow headers) tr) lang
        = some (rows.foldl (projRow j) m)
  | [], _, _, hm => hm
  | row :: rest, tr, m, hm => by
    simp only [List.foldl_cons]
    exact decodeFold_at headers j lang hnd hj rest _ _
      (processRow_at headers tr row j lang m hnd hj hm)

theorem projFold_lookup (j : Nat) (key : Str) (hkey : key ≠ []) :
    ∀ (rows : List (List Str)) (m : List (Str × Str)),
      jsGet (rows.foldl (projRow j) m) key
        = match lastRowWith rows key with
          | some r => some (escapeNewlines (r.getD j []))
          | none => jsGet m key
  | [], _ => by simp [lastRowWith]
  | row :: rest, m => by
    simp only [List.foldl_cons, lastRowWith]
    rw [projFold_lookup j key hkey rest (projRow j m row)]
    cases lastRowWith rest key with
    | some r => simp
    | none =>
      simp only [projRow]
      by_cases hk : row.getD 0 [] = key
      · rw [if_pos hk, if_neg (hk ▸ hkey), hk, jsGet_jsSet_self]
      · rw [if_neg hk]
        by_cases hnil : row.getD 0 [] = []
        · rw [if_pos hnil]
        · rw [if_neg hnil,
            jsGet_jsSet_ne _ _ (fun hcontra => hk hcontra.symm)]

theorem projFold_empty_key (j : Nat) :
    ∀ (rows : List (List Str)) (m : List (Str × Str)),
      jsGet (rows.foldl (projRow j) m) [] = jsGet m []
  | [], _ => rfl
  | row :: rest, m => by
    simp only [List.foldl_cons]
    rw [projFold_empty_key j rest (projRow j m row)]
    simp only [projRow]
    by_cases hnil : row.getD 0 [] = []
    · rw [if_pos hnil]
    · rw [if_neg hnil, jsGet_jsSet_ne _ _ (Ne.symm hnil)]

theorem lastRowWith_isSome_iff (key : Str) :
    ∀ (rows : List (List Str)),
      (lastRowWith rows key).isSome = true ↔ ∃ r ∈ rows, r.getD 0 [] = key
  | [] => by simp [lastRowWith]
  | row :: rest => by
    simp only [lastRowWith]
    cases hr : lastRowWith rest key with
    | some r =>
      simp only [Option.isSome_some, true_iff]
      obtain ⟨r2, hr2, hr2k⟩ := (lastRowWith_isSome_iff key rest).mp
        (by simp [hr])
      exact ⟨r2, List.mem_cons_of_mem row hr2, hr2k⟩
    | none =>
      by_cases hk : row.getD 0 [] = key
      · simp only [if_pos hk, Option.isSome_some, true_iff]
        exact ⟨row, by simp, hk⟩
      · rw [if_neg hk]
        constructor
        · intro hcontra
          simp at hcontra
        · rintro ⟨r, hr2, hcontra⟩
          exfalso
          rcases List.mem_cons.mp hr2 with h2 | h2
          · exact hk (h2 ▸ hcontra)
          · have h3 := (lastRowWith_isSome_iff key rest).mpr ⟨r, h2, hcontra⟩
            rw [hr] at h3
            simp at h3

theorem jsGet_map_const (langs : List Str) (lang : Str) (h : lang ∈ langs) :
    jsGet (langs.map (fun l => (l, ([] : List (Str × Str))))) lang = some [] := by
  induction langs with
  | nil => simp at h
  | cons a rest ih =>
    by_cases ha : a = lang
    · simp [jsGet, ha]
    · rcases List.mem_cons.mp h with h2 | h2
      · exact absurd h2.symm ha
      · simp [jsGet, ha, ih h2]

/-- **C4.**  For every sheet with a header row, at least one data row and
pairwise-distinct language headers, `#processDataByLanguage` produces exactly
one translation map per non-key header column, in header order; each language
map holds no entry for the empty key, holds exactly the keys of the data rows
with a non-empty key cell, and maps each such key to the escaped cell of the
*last* data row carrying that key (later rows overwrite earlier ones). -/
theorem C4_decode (headers : List Str) (rows : List (List Str))
    (hrows : rows ≠ []) (hnd : (headers.drop 1).Nodup) :
    (processDataByLanguage (headers :: rows)).map Prod.fst = headers.drop 1 ∧
    ∀ j lang, (j, lang) ∈ List.enumFrom 1 (headers.drop 1) →
      ∃ m, jsGet (processDataByLanguage (headers :: rows)) lang = some m ∧
        jsGet m [] = none ∧
        (∀ key, key ≠ [] →
          jsGet m key
            = (lastRowWith rows key).map
                (fun r => escapeNewlines (r.getD j []))) ∧
        (∀ key, (jsGet m key).isSome = true
          ↔ key ≠ [] ∧ ∃ r ∈ rows, r.getD 0 [] = key) := by
  have hlen : ¬ ((headers :: rows).length < 2) := by
    cases rows with
    | nil => exact absurd rfl hrows
    | cons r rs => simp [List.length]
  have hunfold : processDataByLanguage (headers :: rows)
      = rows.foldl (processRow headers)
          ((headers.drop 1).foldl (fun tr lang => jsSet tr lang []) []) := by
    simp only [processDataByLanguage, if_neg hlen]
  have hkeys : ((headers.drop 1).map
      (fun l => (l, ([] : List (Str × Str))))).map Prod.fst
      = headers.drop 1 := by
    simp [Function.comp_def]
  rw [hunfold, init_maps_eq _ hnd]
  constructor
  · rw [decodeFold_map_fst headers rows _
      (fun l hl => by rw [hkeys]; exact hl), hkeys]
  · intro j lang hj
    have hlang : lang ∈ headers.drop 1 := enumFrom_snd_mem 1 _ _ hj
    have hinit : jsGet ((headers.drop 1).map (fun l => (l, []))) lang
        = some [] := jsGet_map_const _ _ hlang
    refine ⟨rows.foldl (projRow j) [],
      decodeFold_at headers j lang hnd hj rows _ [] hinit, ?_, ?_, ?_⟩
    · rw [projFold_empty_key]
      rfl
    · intro key hkey
      rw [projFold_lookup j key hkey rows []]
      cases lastRowWith rows key <;> simp [jsGet]
    · intro key
      by_cases hkey : key = []
      · subst hkey
        rw [projFold_empty_key]
        simp [jsGet]
      · rw [projFold_lookup j key hkey rows [], ← lastRowWith_isSome_iff]
        cases lastRowWith rows key <;> simp [jsGet, hkey]

/-- **C4, witness.**  The characterization evaluated at the concrete sheet
`[["K","en","fr"],["g","H","B"],["","x","y"]]` (one real data row plus a
blank-keyed row that must be dropped). -/
theorem C4_witness :
    (([[['g']], [[], ['x'], ['y']]] : List (List Str)) ≠ []) ∧
    (([['K'], ['e', 'n'], ['f', 'r']].drop 1).Nodup) ∧
    ((processDataByLanguage
        ([['K'], ['e', 'n'], ['f', 'r']] :: [[['g']], [[], ['x'], ['y']]])).map
          Prod.fst
        = [['K'], ['e', 'n'], ['f', 'r']].drop 1 ∧
      ∀ j lang, (j, lang) ∈ List.enumFrom 1 ([['K'], ['e', 'n'], ['f', 'r']].drop 1) →
        ∃ m, jsGet (processDataByLanguage
            ([['K'], ['e', 'n'], ['f', 'r']] :: [[['g']], [[], ['x'], ['y']]]))
            lang = some m ∧
          jsGet m [] = none ∧
          (∀ key, key ≠ [] →
            jsGet m key
              = (lastRowWith [[['g']], [[], ['x'], ['y']]] key).map
                  (fun r => escapeNewlines (r.getD j []))) ∧
          (∀ key, (jsGet m key).isSome = true
            ↔ key ≠ [] ∧ ∃ r ∈ [[['g']], [[], ['x'], ['y']]],
                r.getD 0 [] = key)) :=
  ⟨by decide, by decide, C4_decode _ _ (by decide) (by decide)⟩

/-! ## C2: `encode(decode(sheet))` -/

theorem decode_at (headers : List Str) (rows : List (List Str))
    (hrows : rows ≠ []) (hnd : (headers.drop 1).Nodup)
    (j : Nat) (lang : Str)
    (hj : (j, lang) ∈ List.enumFrom 1 (headers.drop 1)) :
    jsGet (processDataByLanguage (headers :: rows)) lang
      = some (rows.foldl (projRow j) []) := by
  have hlen : ¬ ((headers :: rows).length < 2) := by
    cases rows with
    | nil => exact absurd rfl hrows
    | cons r rs => simp [List.length]
  have hunfold : processDataByLanguage (headers :: rows)
      = rows.foldl (processRow headers)
          ((headers.drop 1).foldl (fun tr lang => jsSet tr lang []) []) := by
    simp only [processDataByLanguage, if_neg hlen]
  rw [hunfold, init_maps_eq _ hnd]
  exact decodeFold_at headers j lang hnd hj rows _ []
    (jsGet_map_const _ _ (enumFrom_snd_mem 1 _ _ hj))

theorem jsGet_toJsMap (m : List (Str × Str)) (k : Str) :
    jsGet (toJsMap m) k = (jsGet m k).map JsValue.str := by
  induction m with
  | nil => rfl
  | cons p rest ih =>
    rw [show toJsMap (p :: rest) = (p.1, JsValue.str p.2) :: toJsMap rest
      from rfl]
    by_cases hp : p.1 = k
    · simp [jsGet, hp]
    · simp [jsGet, hp, ih]

theorem jsGet_toJsByLang (tr : List (Str × List (Str × Str))) (lang : Str) :
    jsGet (toJsByLang tr) lang = (jsGet tr lang).map toJsMap := by
  induction tr with
  | nil => rfl
  | cons lm rest ih =>
    rw [show toJsByLang (lm :: rest) = (lm.1, toJsMap lm.2) :: toJsByLang rest
      from rfl]
    by_cases hp : lm.1 = lang
    · simp [jsGet, hp]
    · simp [jsGet, hp, ih]

theorem lastRowWith_eq_none (rows : List (List Str)) (key : Str)
    (h : ∀ r ∈ rows, r.getD 0 [] ≠ key) : lastRowWith rows key = none := by
  rw [← Option.not_isSome_iff_eq_none]
  intro hcontra
  obtain ⟨r, hr, hrk⟩ := (lastRowWith_isSome_iff key rows).mp hcontra
  exact h r hr hrk

theorem lastRowWith_self :
    ∀ (rows : List (List Str)) (r : List Str),
      (rows.map (fun row => row.getD 0 [])).Nodup → r ∈ rows →
      lastRowWith rows (r.getD 0 []) = some r
  | [], _, _, hr => by simp at hr
  | row :: rest, r, hnd, hr => by
    simp only [List.map_cons, List.nodup_cons] at hnd
    rcases List.mem_cons.mp hr with h2 | h2
    · subst h2
      have hnone : lastRowWith rest (r.getD 0 []) = none :=
        lastRowWith_eq_none rest _ (fun r2 hr2 hcontra =>
          hnd.1 (hcontra ▸ List.mem_map_of_mem _ hr2))
      simp only [lastRowWith]
      rw [hnone]
      simp
    · have hsome := lastRowWith_self rest r hnd.2 h2
      simp only [lastRowWith]
      rw [hsome]

theorem mem_enumFrom_one {α : Type} (l : List α) (i : Nat) (h : i < l.length) :
    (1 + i, l[i]) ∈ List.enumFrom 1 l := by
  have h2 : i < (List.enumFrom 1 l).length := by simpa using h
  have h3 := List.getElem_enumFrom l 1 i h2
  have hm := List.getElem_mem h2
  rw [h3] at hm
  exact hm

/-- **C2, counterexample.**  The two newline transforms are not inverses: on
the sheet `[["K","en"],["k","\\n"]]` (the cell holds a literal backslash-n,
no newline), decode leaves the cell unchanged but re-encoding turns it into a
literal newline, so the data-row values are not reproduced. -/
theorem C2_counterexample :
    ((([[['k'], ['\\', 'n']]] : List (List Str)).map (fun r => r.getD 0 [])).map
        (buildRow [['e', 'n']]
          (toJsByLang (processDataByLanguage
            [[['K'], ['e', 'n']], [['k'], ['\\', 'n']]])))
      = [[['k'], ['\n']]]) ∧
    [[['k'], ['\n']]] ≠ ([[['k'], ['\\', 'n']]] : List (List Str)) :=
  ⟨by decide, by decide⟩

/-- **C2 (amended).**  For every sheet with a header row, at least one data
row, distinct language headers, full-width rows with non-empty pairwise
distinct keys: re-encoding the decoded per-language mapping with the keys in
sheet order reproduces each data row with every value cell mapped through
escape-then-unescape (decode turns each CR?LF into backslash-n, encode turns
each backslash-n into LF; this composite is the identity exactly on cells
containing no CR and no pre-existing literal backslash-n). -/
theorem C2_encode_decode (k0 : Str) (langs : List Str) (rows : List (List Str))
    (hrows : rows ≠ []) (hnd : langs.Nodup)
    (hlen : ∀ r ∈ rows, r.length = langs.length + 1)
    (hkeysne : ∀ r ∈ rows, r.getD 0 [] ≠ [])
    (hkeysnd : (rows.map (fun r => r.getD 0 [])).Nodup) :
    (rows.map (fun r => r.getD 0 [])).map
        (buildRow langs
          (toJsByLang (processDataByLanguage ((k0 :: langs) :: rows))))
      = rows.map (fun r =>
          r.getD 0 [] :: (r.drop 1).map
            (fun c => unescapeNewlines (escapeNewlines c))) := by
  rw [List.map_map]
  apply List.map_congr_left
  intro r hr
  simp only [Function.comp_apply, buildRow]
  refine congrArg (fun tail => r.getD 0 [] :: tail) ?_
  have hrlen : r.length = langs.length + 1 := hlen r hr
  apply List.ext_getElem
  · simp [hrlen]
  intro i h1 h2
  have hi : i < langs.length := by simpa using h1
  have hdec := decode_at (k0 :: langs) rows hrows (by simpa using hnd)
    (1 + i) langs[i] (by simpa using mem_enumFrom_one langs i hi)
  have hcell : jsGet
      (jsGetD (toJsByLang (processDataByLanguage ((k0 :: langs) :: rows)))
        langs[i] []) (r.getD 0 [])
      = some (JsValue.str (escapeNewlines (r.getD (1 + i) []))) := by
    rw [jsGetD, jsGet_toJsByLang, hdec]
    show jsGet (toJsMap (rows.foldl (projRow (1 + i)) [])) (r.getD 0 [])
      = some (JsValue.str (escapeNewlines (r.getD (1 + i) [])))
    rw [jsGet_toJsMap,
      projFold_lookup (1 + i) (r.getD 0 []) (hkeysne r hr) rows [],
      lastRowWith_self rows r hkeysnd hr]
    rfl
  rw [List.getElem_map, List.getElem_map, hcell, List.getElem_drop,
    List.getD_eq_getElem r [] (by omega)]

/-- **C2, witness.**  The amended round-trip evaluated at the concrete sheet
`[["K","en"],["a","x"],["b","p\nq"]]` (a multi-line cell included). -/
theorem C2_witness :
    (([[['a'], ['x']], [['b'], ['p', '\n', 'q']]] : List (List Str)) ≠ []) ∧
    (([[['a'], ['x']], [['b'], ['p', '\n', 'q']]] : List (List Str)).map
          (fun r => r.getD 0 [])).map
        (buildRow [['e', 'n']]
          (toJsByLang (processDataByLanguage
            ((['K'] :: [['e', 'n']]) ::
              [[['a'], ['x']], [['b'], ['p', '\n', 'q']]]))))
      = ([[['a'], ['x']], [['b'], ['p', '\n', 'q']]] : List (List Str)).map
          (fun r => r.getD 0 [] :: (r.drop 1).map
            (fun c => unescapeNewlines (escapeNewlines c))) :=
  ⟨by decide, C2_encode_decode ['K'] [['e', 'n']] _ (by decide) (by decide)
    (by decide) (by decide) (by decide)⟩

/-! ## C6: the sort comparator and its order -/

theorem lexLe_refl : ∀ (a : Str), lexLe a a = true
  | [] => rfl
  | c :: rest => by simp [lexLe, lt_irrefl, lexLe_refl rest]

theorem lexLe_total : ∀ (a b : Str), lexLe a b = true ∨ lexLe b a = true
  | [], _ => Or.inl rfl
  | _ :: _, [] => Or.inr rfl
  | a :: as, b :: bs => by
    rcases lt_trichotomy a b with h | h | h
    · left
      simp [lexLe, h]
    · subst h
      rcases lexLe_total as bs with h2 | h2
      · left
        simp [lexLe, lt_irrefl, h2]
      · right
        simp [lexLe, lt_irrefl, h2]
    · right
      simp [lexLe, h]

theorem lexLe_trans : ∀ (a b c : Str),
    lexLe a b = true → lexLe b c = true → lexLe a c = true
  | [], _, _, _, _ => rfl
  | _ :: _, [], _, h1, _ => by simp [lexLe] at h1
  | _ :: _, _ :: _, [], _, h2 => by simp [lexLe] at h2
  | a :: as, b :: bs, c :: cs, h1, h2 => by
    rcases lt_trichotomy a b with hab | hab | hab
    · rcases lt_trichotomy b c with hbc | hbc | hbc
      · simp [lexLe, lt_trans hab hbc]
      · subst hbc
        simp [lexLe, hab]
      · simp [lexLe, hbc, asymm hbc] at h2
    · subst hab
      have hred : ∀ (xs ys : List Char), lexLe (a :: xs) (a :: ys) = lexLe xs ys :=
        fun xs ys => by simp [lexLe, lt_irrefl]
      rcases lt_trichotomy a c with hbc | hbc | hbc
      · simp [lexLe, hbc]
      · subst hbc
        rw [hred] at h1 h2 ⊢
        exact lexLe_trans as bs cs h1 h2
      · simp [lexLe, hbc, asymm hbc] at h2
    · simp [lexLe, hab, asymm hab] at h1

theorem localeCompare_nonpos_iff (a b : Str) :
    localeCompare a b ≤ 0 ↔ lexLe a b = true := by
  unfold localeCompare
  by_cases hab : a = b
  · subst hab
    simp [lexLe_refl]
  · rw [if_neg hab]
    by_cases h : lexLe a b = true
    · simp [h]
    · simp [h]

theorem pushCompare_le_iff (main a b : Str) :
    pushCompare main a b ≤ 0 ↔
      a = main ∨ (a ≠ main ∧ b ≠ main ∧
        ((startsUnderscore a = false ∧ startsUnderscore b = true) ∨
         (startsUnderscore a = startsUnderscore b ∧ lexLe a b = true))) := by
  unfold pushCompare
  by_cases ha : a = main
  · simp [ha]
  · rw [if_neg ha]
    by_cases hb : b = main
    · simp [ha, hb]
    · rw [if_neg hb]
      cases hua : startsUnderscore a <;> cases hub : startsUnderscore b
      · simp [ha, hb, hua, hub, localeCompare_nonpos_iff]
      · simp [ha, hb, hua, hub]
      · simp [ha, hb, hua, hub]
      · simp [ha, hb, hua, hub, localeCompare_nonpos_iff]

theorem pushCompare_le_total (main a b : Str) :
    pushCompare main a b ≤ 0 ∨ pushCompare main b a ≤ 0 := by
  rw [pushCompare_le_iff, pushCompare_le_iff]
  by_cases ha : a = main
  · exact Or.inl (Or.inl ha)
  by_cases hb : b = main
  · exact Or.inr (Or.inl hb)
  cases hua : startsUnderscore a <;> cases hub : startsUnderscore b
  · rcases lexLe_total a b with h | h
    · exact Or.inl (Or.inr ⟨ha, hb, Or.inr ⟨rfl, h⟩⟩)
    · exact Or.inr (Or.inr ⟨hb, ha, Or.inr ⟨rfl, h⟩⟩)
  · exact Or.inl (Or.inr ⟨ha, hb, Or.inl ⟨rfl, rfl⟩⟩)
  · exact Or.inr (Or.inr ⟨hb, ha, Or.inl ⟨rfl, rfl⟩⟩)
  · rcases lexLe_total a b with h | h
    · exact Or.inl (Or.inr ⟨ha, hb, Or.inr ⟨rfl, h⟩⟩)
    · exact Or.inr (Or.inr ⟨hb, ha, Or.inr ⟨rfl, h⟩⟩)

theorem pushCompare_le_trans (main a b c : Str)
    (h1 : pushCompare main a b ≤ 0) (h2 : pushCompare main b c ≤ 0) :
    pushCompare main a c ≤ 0 := by
  rw [pushCompare_le_iff] at h1 h2 ⊢
  rcases h1 with ha | ⟨ha, hb, hab⟩
  · exact Or.inl ha
  · rcases h2 with hb2 | ⟨hb2, hc, hbc⟩
    · exact absurd hb2 hb
    · refine Or.inr ⟨ha, hc, ?_⟩
      rcases hab with ⟨ha1, hb1⟩ | ⟨heq1, hlex1⟩ <;>
        rcases hbc with ⟨hb3, hc3⟩ | ⟨heq2, hlex2⟩
      · rw [hb1] at hb3
        exact absurd hb3 (by simp)
      · exact Or.inl ⟨ha1, heq2.symm.trans hb1⟩
      · exact Or.inl ⟨heq1.trans hb3, hc3⟩
      · exact Or.inr ⟨heq1.trans heq2, lexLe_trans a b c hlex1 hlex2⟩

theorem insertFile_perm (main : Str) (x : Str × JsValue) :
    ∀ (l : List (Str × JsValue)), (insertFile main x l).Perm (x :: l)
  | [] => List.Perm.refl _
  | y :: ys => by
    unfold insertFile
    split
    · exact ((insertFile_perm main x ys).cons y).trans
        (List.Perm.swap x y ys)
    · exact List.Perm.refl _

theorem sortFiles_foldl_perm (main : Str) :
    ∀ (files acc : List (Str × JsValue)),
      (files.foldl (fun acc x => insertFile main x acc) acc).Perm
        (acc ++ files)
  | [], acc => by simp
  | f :: fs, acc => by
    simp only [List.foldl_cons]
    refine (sortFiles_foldl_perm main fs (insertFile main f acc)).trans ?_
    have h1 : (insertFile main f acc ++ fs).Perm ((f :: acc) ++ fs) :=
      (insertFile_perm main f acc).append_right fs
    refine h1.trans ?_
    simp only [List.cons_append]
    exact List.perm_middle.symm

theorem mem_insertFile (main : Str) (x z : Str × JsValue)
    (l : List (Str × JsValue)) :
    z ∈ insertFile main x l ↔ z = x ∨ z ∈ l :=
  ⟨fun h => by
    have := (insertFile_perm main x l).mem_iff.mp h
    simpa using this,
   fun h => (insertFile_perm main x l).mem_iff.mpr (by simpa using h)⟩

theorem pairwise_insertFile (main : Str) (x : Str × JsValue) :
    ∀ (l : List (Str × JsValue)),
      l.Pairwise (fun a b => pushCompare main a.1 b.1 ≤ 0) →
      (insertFile main x l).Pairwise
        (fun a b => pushCompare main a.1 b.1 ≤ 0)
  | [], _ => List.pairwise_singleton _ x
  | y :: ys, hl => by
    rw [List.pairwise_cons] at hl
    unfold insertFile
    split
    · rw [List.pairwise_cons]
      refine ⟨fun z hz => ?_, pairwise_insertFile main x ys hl.2⟩
      rcases (mem_insertFile main x z ys).mp hz with hz | hz
      · subst hz
        assumption
      · exact hl.1 z hz
    · rw [List.pairwise_cons]
      have hxy : pushCompare main x.1 y.1 ≤ 0 := by
        rcases pushCompare_le_total main y.1 x.1 with h | h
        · exact absurd h (by assumption)
        · exact h
      refine ⟨fun z hz => ?_, List.pairwise_cons.mpr ⟨hl.1, hl.2⟩⟩
      rcases List.mem_cons.mp hz with hz | hz
      · subst hz
        exact hxy
      · exact pushCompare_le_trans main x.1 y.1 z.1 hxy (hl.1 z hz)

theorem sortFiles_foldl_pairwise (main : Str) :
    ∀ (files acc : List (Str × JsValue)),
      acc.Pairwise (fun a b => pushCompare main a.1 b.1 ≤ 0) →
      (files.foldl (fun acc x => insertFile main x acc) acc).Pairwise
        (fun a b => pushCompare main a.1 b.1 ≤ 0)
  | [], _, h => h
  | f :: fs, acc, h => by
    simp only [List.foldl_cons]
    exact sortFiles_foldl_pairwise main fs _ (pairwise_insertFile main f acc h)

theorem pushCompare_le_claimLe (main a b : Str)
    (h : pushCompare main a b ≤ 0) : claimLe main a b := by
  rw [pushCompare_le_iff] at h
  unfold claimLe groupOf
  rcases h with ha | ⟨ha, hb, hab⟩
  · simp [ha]
  · rw [if_neg ha, if_neg hb]
    rcases hab with ⟨ha1, hb1⟩ | ⟨heq, hlex⟩
    · rw [ha1, hb1]
      simp
    · rw [← heq]
      cases hua : startsUnderscore a <;> simp [hlex]

/-- **C6.**  `push` sorts the language files into a permutation of the input in
which the main-language file comes first, files whose code starts with an
underscore come last, and all other files are ordered alphabetically between
those two groups; the header row is `"Key"` followed by the language codes in
exactly this sorted order. -/
theorem C6_sort (files : List (Str × JsValue)) (mainLanguage : Str) :
    (sortFiles mainLanguage files).Perm files ∧
    (sortFiles mainLanguage files).Pairwise
      (fun a b => claimLe mainLanguage a.1 b.1) ∧
    pushHeadersOf (sortFiles mainLanguage files)
      = "Key".toList :: (sortFiles mainLanguage files).map Prod.fst := by
  refine ⟨?_, ?_, rfl⟩
  · simpa using sortFiles_foldl_perm mainLanguage files []
  · exact (sortFiles_foldl_pairwise mainLanguage files [] (by simp)).imp
      (fun h => pushCompare_le_claimLe mainLanguage _ _ h)

/-! ## C5: the merged key list -/

theorem addKeys_append (acc ks1 ks2 : List Str) :
    addKeys acc (ks1 ++ ks2) = addKeys (addKeys acc ks1) ks2 :=
  List.foldl_append _ _ _ _

theorem mem_addKeys (k : Str) :
    ∀ (ks acc : List Str), k ∈ addKeys acc ks ↔ k ∈ acc ∨ k ∈ ks
  | [], acc => by simp [addKeys]
  | k2 :: rest, acc => by
    have hre : ∀ a : List Str,
        List.foldl (fun a k => if a.contains k then a else a ++ [k]) a rest
          = addKeys a rest := fun _ => rfl
    simp only [addKeys, List.foldl_cons]
    by_cases h : acc.contains k2
    · rw [if_pos h, hre, mem_addKeys k rest acc]
      have hk2 : k2 ∈ acc := by simpa using h
      simp only [List.mem_cons]
      constructor
      · rintro (h1 | h1)
        · exact Or.inl h1
        · exact Or.inr (Or.inr h1)
      · rintro (h1 | h1 | h1)
        · exact Or.inl h1
        · exact Or.inl (h1 ▸ hk2)
        · exact Or.inr h1
    · rw [if_neg h, hre, mem_addKeys k rest (acc ++ [k2])]
      simp only [List.mem_append, List.mem_cons, List.mem_singleton]
      tauto

theorem addKeys_eq_firstSeen :
    ∀ (ks acc : List Str),
      addKeys acc ks
        = acc ++ firstSeen (ks.filter (fun x => !(acc.contains x)))
  | [], acc => by simp [addKeys, firstSeen]
  | k :: rest, acc => by
    have hre : ∀ a : List Str,
        List.foldl (fun a k => if a.contains k then a else a ++ [k]) a rest
          = addKeys a rest := fun _ => rfl
    simp only [addKeys, List.foldl_cons, List.filter_cons]
    by_cases h : acc.contains k
    · rw [if_pos h]
      have hb : (!(acc.contains k)) = false := by simp only [h, Bool.not_true]
      rw [hb, hre]
      simpa using addKeys_eq_firstSeen rest acc
    · rw [if_neg h]
      have hfalse : acc.contains k = false := by simpa using h
      have hb : (!(acc.contains k)) = true := by
        simp only [hfalse, Bool.not_false]
      rw [hb, hre, addKeys_eq_firstSeen rest (acc ++ [k])]
      have hfe : rest.filter (fun x => !((acc ++ [k]).contains x))
          = (rest.filter (fun x => !(acc.contains x))).filter
              (fun x => !(x == k)) := by
        rw [List.filter_filter]
        apply List.filter_congr
        intro x _
        by_cases h1 : x ∈ acc <;> by_cases h2 : x = k <;> simp [h1, h2]
      rw [hfe]
      simp only [if_true]
      rw [show firstSeen (k :: (rest.filter (fun x => !(acc.contains x))))
          = k :: firstSeen ((rest.filter (fun x => !(acc.contains x))).filter
              (fun x => !(x == k))) from by rw [firstSeen]]
      simp

theorem addKeys_of_subset (ks acc : List Str) (h : ∀ k ∈ ks, k ∈ acc) :
    addKeys acc ks = acc := by
  induction ks generalizing acc with
  | nil => rfl
  | cons k rest ih =>
    have hre : ∀ a : List Str,
        List.foldl (fun a k => if a.contains k then a else a ++ [k]) a rest
          = addKeys a rest := fun _ => rfl
    simp only [addKeys, List.foldl_cons]
    rw [if_pos (by simpa using h k (by simp)), hre]
    exact ih acc (fun k2 hk2 => h k2 (List.mem_cons_of_mem k hk2))

theorem foldl_addKeys_join {α : Type} (g : α → List Str) :
    ∀ (files : List α) (acc : List Str),
      files.foldl (fun a f => addKeys a (g f)) acc
        = addKeys acc ((files.map g).flatten)
  | [], acc => by simp [addKeys]
  | f :: fs, acc => by
    simp only [List.foldl_cons, List.map_cons, List.flatten_cons]
    rw [foldl_addKeys_join g fs (addKeys acc (g f)), addKeys_append]

theorem find?_self_of_nodup :
    ∀ (files : List (Str × JsValue)) (g : Str × JsValue),
      (files.map Prod.fst).Nodup → g ∈ files →
      files.find? (fun f => f.1 = g.1) = some g
  | [], _, _, hg => by simp at hg
  | f :: fs, g, hnd, hg => by
    simp only [List.map_cons, List.nodup_cons] at hnd
    rcases List.mem_cons.mp hg with h2 | h2
    · subst h2
      simp [List.find?_cons_of_pos]
    · have hne : ¬ (f.1 = g.1) := by
        intro hcontra
        exact hnd.1 (hcontra ▸ List.mem_map_of_mem Prod.fst h2)
      rw [List.find?_cons_of_neg _ (by simpa using hne)]
      exact find?_self_of_nodup fs g hnd.2 h2

theorem jsGet_map_pair {β : Type} (h : Str × JsValue → β) :
    ∀ (files : List (Str × JsValue)) (c : Str),
      jsGet (files.map (fun f => (f.1, h f))) c
        = (files.find? (fun f => f.1 = c)).map h
  | [], _ => rfl
  | f :: fs, c => by
    by_cases hc : f.1 = c
    · simp only [List.map_cons]
      rw [show jsGet ((f.1, h f) :: fs.map (fun f => (f.1, h f))) c
          = if f.1 = c then some (h f) else
              jsGet (fs.map (fun f => (f.1, h f))) c from rfl,
        if_pos hc, List.find?_cons_of_pos _ (by simpa using hc)]
      rfl
    · rw [show jsGet ((f :: fs).map (fun f => (f.1, h f))) c
          = if f.1 = c then some (h f) else
              jsGet (fs.map (fun f => (f.1, h f))) c from rfl,
        if_neg hc, List.find?_cons_of_neg _ (by simpa using hc)]
      exact jsGet_map_pair h fs c

theorem flattenedByLangOf_eq (files : List (Str × JsValue))
    (hnd : (files.map Prod.fst).Nodup) :
    flattenedByLangOf files
      = files.map (fun f => (f.1, flattenObject f.2 [] [])) := by
  unfold flattenedByLangOf
  have h1 : files.foldl (fun m f => jsSet m f.1 (flattenObject f.2 [] [])) []
      = (files.map (fun f => (f.1, flattenObject f.2 [] []))).foldl
          (fun o p => jsSet o p.1 p.2) [] := by
    rw [List.foldl_map]
  rw [h1, foldl_jsSet_eq_append _ []
    (by simpa [List.map_map, Function.comp_def] using hnd) (by simp)]
  simp

theorem addKeys_nil_eq_firstSeen (ks : List Str) :
    addKeys [] ks = firstSeen ks := by
  rw [addKeys_eq_firstSeen]
  have hfe : ks.filter (fun x => !(List.contains [] x)) = ks := by
    induction ks with
    | nil => rfl
    | cons k rest ih => simp [List.filter_cons, ih, List.contains]
  rw [hfe]
  simp

/-- **C5.**  The merged key list of `push`: with the files' language codes
pairwise distinct, it is the first-occurrence dedup of all files' flattened
keys in file-then-key order, seeded by the main-language file's keys when the
main language is present (so those come first, in that file's flattened
order); when it is absent the seed is the first file of the sorted list, which
yields the plain file-then-key first-occurrence order. -/
theorem C5_merged_keys (sortedFiles : List (Str × JsValue)) (mainLanguage : Str)
    (hnd : (sortedFiles.map Prod.fst).Nodup) :
    mergeAllKeys sortedFiles (flattenedByLangOf sortedFiles) mainLanguage
      = match sortedFiles.find? (fun f => f.1 = mainLanguage) with
        | some f => firstSeen ((flattenObject f.2 [] []).map Prod.fst
            ++ (sortedFiles.map
                (fun g => (flattenObject g.2 [] []).map Prod.fst)).flatten)
        | none => firstSeen ((sortedFiles.map
            (fun g => (flattenObject g.2 [] []).map Prod.fst)).flatten) := by
  have hkeysOf : ∀ f ∈ sortedFiles,
      (jsGetD (flattenedByLangOf sortedFiles) f.1 []).map Prod.fst
        = (flattenObject f.2 [] []).map Prod.fst := by
    intro f hf
    rw [jsGetD, flattenedByLangOf_eq sortedFiles hnd,
      jsGet_map_pair (fun f => flattenObject f.2 [] []) sortedFiles f.1,
      find?_self_of_nodup sortedFiles f hnd hf]
    rfl
  have hmap : sortedFiles.map
      (fun f => (jsGetD (flattenedByLangOf sortedFiles) f.1 []).map Prod.fst)
      = sortedFiles.map (fun g => (flattenObject g.2 [] []).map Prod.fst) :=
    List.map_congr_left hkeysOf
  simp only [mergeAllKeys]
  rw [foldl_addKeys_join
    (fun f => (jsGetD (flattenedByLangOf sortedFiles) f.1 []).map Prod.fst)
    sortedFiles, hmap]
  cases hfind : sortedFiles.find? (fun f => f.1 = mainLanguage) with
  | none =>
    cases sortedFiles with
    | nil => simp [seedKeys, addKeys, firstSeen]
    | cons f0 rest =>
      have hseed : seedKeys (f0 :: rest) (flattenedByLangOf (f0 :: rest))
          mainLanguage
          = addKeys [] ((jsGetD (flattenedByLangOf (f0 :: rest)) f0.1 []).map
              Prod.fst) := by
        simp [seedKeys, hfind]
      rw [hseed, hkeysOf f0 (by simp)]
      simp only [List.map_cons, List.flatten_cons]
      rw [addKeys_append, addKeys_of_subset _ _
          (fun k hk => (mem_addKeys k _ []).mpr (Or.inr hk)),
        ← addKeys_append, addKeys_nil_eq_firstSeen]
  | some f =>
    have hf : f ∈ sortedFiles := List.mem_of_find?_eq_some hfind
    have hseed : seedKeys sortedFiles (flattenedByLangOf sortedFiles)
        mainLanguage
        = addKeys [] ((jsGetD (flattenedByLangOf sortedFiles) f.1 []).map
            Prod.fst) := by
      simp [seedKeys, hfind]
    rw [hseed, hkeysOf f hf, ← addKeys_append, addKeys_nil_eq_firstSeen]

/-- **C5, witness.**  The spec scenario: `en = {a: "1", b: "2"}`,
`fr = {b: "2", c: "3"}`, main language `en` — the merged key order is
`[a, b, c]`. -/
theorem C5_witness :
    (([(['e', 'n'], JsValue.obj [(['a'], JsValue.str ['1']),
          (['b'], JsValue.str ['2'])]),
       (['f', 'r'], JsValue.obj [(['b'], JsValue.str ['2']),
          (['c'], JsValue.str ['3'])])].map Prod.fst).Nodup) ∧
    (mergeAllKeys
        [(['e', 'n'], JsValue.obj [(['a'], JsValue.str ['1']),
            (['b'], JsValue.str ['2'])]),
         (['f', 'r'], JsValue.obj [(['b'], JsValue.str ['2']),
            (['c'], JsValue.str ['3'])])]
        (flattenedByLangOf
          [(['e', 'n'], JsValue.obj [(['a'], JsValue.str ['1']),
              (['b'], JsValue.str ['2'])]),
           (['f', 'r'], JsValue.obj [(['b'], JsValue.str ['2']),
              (['c'], JsValue.str ['3'])])])
        ['e', 'n']
      = match [(['e', 'n'], JsValue.obj [(['a'], JsValue.str ['1']),
            (['b'], JsValue.str ['2'])]),
          (['f', 'r'], JsValue.obj [(['b'], JsValue.str ['2']),
            (['c'], JsValue.str ['3'])])].find?
            (fun f => f.1 = ['e', 'n']) with
        | some f => firstSeen ((flattenObject f.2 [] []).map Prod.fst
            ++ ([(['e', 'n'], JsValue.obj [(['a'], JsValue.str ['1']),
                  (['b'], JsValue.str ['2'])]),
                (['f', 'r'], JsValue.obj [(['b'], JsValue.str ['2']),
                  (['c'], JsValue.str ['3'])])].map
                (fun g => (flattenObject g.2 [] []).map Prod.fst)).flatten)
        | none => firstSeen
            (([(['e', 'n'], JsValue.obj [(['a'], JsValue.str ['1']),
                  (['b'], JsValue.str ['2'])]),
               (['f', 'r'], JsValue.obj [(['b'], JsValue.str ['2']),
                  (['c'], JsValue.str ['3'])])].map
                (fun g => (flattenObject g.2 [] []).map Prod.fst)).flatten)) ∧
    mergeAllKeys
        [(['e', 'n'], JsValue.obj [(['a'], JsValue.str ['1']),
            (['b'], JsValue.str ['2'])]),
         (['f', 'r'], JsValue.obj [(['b'], JsValue.str ['2']),
            (['c'], JsValue.str ['3'])])]
        (flattenedByLangOf
          [(['e', 'n'], JsValue.obj [(['a'], JsValue.str ['1']),
              (['b'], JsValue.str ['2'])]),
           (['f', 'r'], JsValue.obj [(['b'], JsValue.str ['2']),
              (['c'], JsValue.str ['3'])])])
        ['e', 'n']
      = [['a'], ['b'], ['c']] :=
  ⟨by decide, C5_merged_keys _ _ (by decide), by decide⟩

/-! ## C9: `getFormatHandler` -/

/-- **C9.**  `getFormatHandler` is case-insensitive — `'JSON'`, `'json'` and
`'Json'` all yield the JSON (Structured) handler without a warning — and every
name whose lowercasing is neither `json` nor `js` yields the JSON handler with
a warning, never a throw (the function is total). -/
theorem C9_getFormatHandler :
    getFormatHandler "JSON".toList = (.json, false) ∧
    getFormatHandler "json".toList = (.json, false) ∧
    getFormatHandler "Json".toList = (.json, false) ∧
    ∀ format : Str, jsToLower format ≠ "json".toList →
      jsToLower format ≠ "js".toList →
      getFormatHandler format = (.json, true) := by
  refine ⟨by decide, by decide, by decide, ?_⟩
  intro format h1 h2
  have h1b : jsToLower format ≠ ['j', 's', 'o', 'n'] := h1
  have h2b : jsToLower format ≠ ['j', 's'] := h2
  simp [getFormatHandler, h1b, h2b]

/-- **C9, witness.**  The unknown-name fallback evaluated at
`'unknown-format'`. -/
theorem C9_witness :
    jsToLower "unknown-format".toList ≠ "json".toList ∧
    jsToLower "unknown-format".toList ≠ "js".toList ∧
    getFormatHandler "unknown-format".toList = (.json, true) :=
  ⟨by decide, by decide,
    C9_getFormatHandler.2.2.2 "unknown-format".toList (by decide) (by decide)⟩

/-! ## C7: the SourceLiteral (JS) handler scenario -/

/-- **C7.**  `JsFormatHandler.save` of `{greet: "Hi 'there'\n"}` emits exactly
the module text whose body contains the pattern `greet: 'Hi \'there\'\n'`
(key unquoted, value single-quoted with the quote backslash-escaped and the
newline as the two-character backslash-n token), and `parseContent` of that
text recovers the original mapping. -/
theorem C7_js_roundtrip :
    jsSave (JsValue.obj [("greet".toList, JsValue.str "Hi \x27there\x27\n".toList)])
      = "export default \x7b\n  greet: \x27Hi \\\x27there\\\x27\\n\x27,\n\x7d;\n".toList ∧
    jsSave (JsValue.obj [("greet".toList, JsValue.str "Hi \x27there\x27\n".toList)])
      = "export default \x7b\n  ".toList
        ++ "greet: \x27Hi \\\x27there\\\x27\\n\x27".toList
        ++ ",\n\x7d;\n".toList ∧
    jsParseContent (jsSave (JsValue.obj
        [("greet".toList, JsValue.str "Hi \x27there\x27\n".toList)]))
      = some (JsValue.obj [("greet".toList, JsValue.str "Hi \x27there\x27\n".toList)]) :=
  ⟨by decide, by decide, by decide⟩

/-! ## C3: `pull` with an empty worksheet list -/

/-- **C3, counterexample.**  With no explicit sheet name and an empty
worksheet list, `pull` does *not* fail with a NotFoundError: it logs
"No worksheets found", returns the empty mapping, and writes nothing — the
result is `ok`, not an error. -/
theorem C3_counterexample :
    pullModel ⟨[], fun _ => []⟩ ['d'] none "json".toList
      = Except.ok ⟨[], []⟩ ∧
    ∀ e, pullModel ⟨[], fun _ => []⟩ ['d'] none "json".toList
      ≠ Except.error e := by
  refine ⟨rfl, ?_⟩
  intro e h
  rw [show pullModel ⟨[], fun _ => []⟩ ['d'] none "json".toList
      = Except.ok ⟨[], []⟩ from rfl] at h
  exact Except.noConfusion h

/-- **C3 (amended).**  For every pull invocation without an explicit sheet
name, if the remote worksheet list is empty then `pull` logs an error and
returns the empty mapping without throwing; the operation aborts and no file
is written. -/
theorem C3_pull_no_sheets (w : SheetsWorld) (translationDir : Str)
    (format : Str) (h : w.sheetTitles = []) :
    pullModel w translationDir none format = Except.ok ⟨[], []⟩ := by
  simp [pullModel, h]

/-- **C3, witness.**  The empty-worksheet behaviour at a concrete world. -/
theorem C3_witness :
    pullModel ⟨[], fun _ => []⟩ ['x'] none ['j', 's'] = Except.ok ⟨[], []⟩ :=
  C3_pull_no_sheets ⟨[], fun _ => []⟩ ['x'] ['j', 's'] rfl

/-! ## C8: `push` with a missing input directory -/

/-- **C8.**  For every push invocation whose input directory does not exist
(client initialization assumed successful, as in the claim), `push` returns
`false` without throwing, and no remote write is performed. -/
theorem C8_push_missing_dir (w : PushWorld) (sourceDir : Str)
    (sheetName : Option Str) (format mainLanguage : Str)
    (h : w.dirExists sourceDir = false) :
    pushModel w sourceDir sheetName format mainLanguage
      = Except.ok ⟨false, []⟩ := by
  simp [pushModel, h]

/-- **C8, witness.**  The missing-directory behaviour at a concrete world. -/
theorem C8_witness :
    pushModel ⟨[['S']], fun _ => false, fun _ => [], fun _ => none⟩
      ['d'] none "json".toList "en".toList = Except.ok ⟨false, []⟩ :=
  C8_push_missing_dir _ ['d'] none "json".toList "en".toList rfl

end I18nSync
